import Mathlib

/-!
# Quantum-Conductivity: a shallow embedding of `src/prompt3b.cpp`

The program has three classes, `Qubit`, `Atom` and `Semiconductor`.

Modelling conventions.

* A C++ `double` is modelled as an element of a linearly ordered field `K`.
  Every definition is generic in `K`, so it evaluates on `ℚ` and the theorems
  hold in particular for `ℝ`.  Rounding, infinities and NaN are not
  represented: the development speaks about the exact arithmetic that the
  program approximates.
* A C++ `int` is modelled as `Int`; signed overflow (undefined behaviour in
  C++) is outside the model.
* A C++ exception is modelled by `Except Error`.
* The library functions `std::sqrt`, `std::cos`, `std::sin` and the random
  draws are parameters of the functions that call them.
-/

/-- The two exception classes thrown by the program: `std::invalid_argument`
(by `Qubit::Qubit`) and `std::runtime_error`
(by `Semiconductor::calculateRequiredElectrons`). -/
inductive Error where
  | invalid_argument
  | runtime_error
  deriving DecidableEq, Repr

/-- Data members of `class Qubit`: `double alpha_, beta_`. -/
structure Qubit (K : Type) where
  alpha_ : K
  beta_ : K
  deriving DecidableEq, Repr

/-- Data members of `class Atom`: `int numElectrons_` and
`std::vector<Qubit> electrons_`. -/
structure Atom (K : Type) where
  numElectrons_ : Int
  electrons_ : List (Qubit K)
  deriving Repr

/-- Data member of `class Semiconductor`: `std::vector<Atom> atoms_`. -/
structure Semiconductor (K : Type) where
  atoms_ : List (Atom K)
  deriving Repr

namespace Qubit

variable {K : Type} [LinearOrderedField K]

/-- The constructor `Qubit::Qubit(double alpha, double beta)` (lines 11-15):
the members are initialised from the arguments and the constructor throws
`std::invalid_argument` when `std::abs(alpha*alpha + beta*beta - 1.0) > 1e-6`. -/
def new (alpha beta : K) : Except Error (Qubit K) :=
  if |alpha * alpha + beta * beta - 1.0| > 1e-6 then
    .error .invalid_argument
  else
    .ok { alpha_ := alpha, beta_ := beta }

/-- The method `Qubit::applyHadamard` (lines 17-23).  `sqrt` stands for
`std::sqrt`.  Both new amplitudes are computed before either member is
overwritten. -/
def applyHadamard (sqrt : K → K) (q : Qubit K) : Qubit K :=
  let invSqrt2 := 1.0 / sqrt 2.0
  let newAlpha := invSqrt2 * (q.alpha_ + q.beta_)
  let newBeta := invSqrt2 * (q.alpha_ - q.beta_)
  { alpha_ := newAlpha, beta_ := newBeta }

/-- The getter `Qubit::getAlpha` (line 25). -/
def getAlpha (q : Qubit K) : K := q.alpha_

/-- The getter `Qubit::getBeta` (line 26). -/
def getBeta (q : Qubit K) : K := q.beta_

/-- The method `Qubit::getConductivityProbability` (line 27):
`alpha_ * alpha_`. -/
def getConductivityProbability (q : Qubit K) : K := q.alpha_ * q.alpha_

end Qubit

namespace Atom

variable {K : Type} [LinearOrderedField K]

/-- The loop of `Atom::Atom` (lines 39-44).  `remaining` is the number of
iterations still to run, `i` the loop counter, `theta i` the value drawn by
`dis_theta(gen)` in iteration `i`, and `cos`, `sin` stand for `std::cos`,
`std::sin`.  A throwing `Qubit` constructor aborts the loop. -/
def drawElectrons (cos sin : K → K) (theta : Nat → K) :
    Nat → Nat → List (Qubit K) → Except Error (List (Qubit K))
  | 0, _, electrons => .ok electrons
  | remaining + 1, i, electrons =>
    let alpha := cos (theta i / 2)
    let beta := sin (theta i / 2)
    match Qubit.new alpha beta with
    | .error e => .error e
    | .ok q => drawElectrons cos sin theta remaining (i + 1) (electrons ++ [q])

/-- The constructor `Atom::Atom(int numElectrons)` (lines 35-45).  The loop
`for (int i = 0; i < numElectrons_; ++i)` runs `numElectrons.toNat` times. -/
def new (cos sin : K → K) (numElectrons : Int) (theta : Nat → K) :
    Except Error (Atom K) :=
  match drawElectrons cos sin theta numElectrons.toNat 0 [] with
  | .error e => .error e
  | .ok electrons => .ok { numElectrons_ := numElectrons, electrons_ := electrons }

/-- The method `Atom::getConductivityProbability` (lines 47-53): the
accumulator starts at `0`, every electron adds its probability, and the total
is divided by `numElectrons_`.  In a Lean field `x / 0 = 0`; the C++ division
by zero (NaN or infinity) is not represented. -/
def getConductivityProbability (a : Atom K) : K :=
  let totalProbability :=
    a.electrons_.foldl (fun total electron => total + electron.getConductivityProbability) 0
  totalProbability / (a.numElectrons_ : K)

/-- The getter `Atom::getNumElectrons` (line 55). -/
def getNumElectrons (a : Atom K) : Int := a.numElectrons_

end Atom

namespace Semiconductor

variable {K : Type} [LinearOrderedField K]

/-- One of the two loops of `Semiconductor::Semiconductor` (lines 65-67 and
68-70): `remaining` more atoms with `numElectrons` electrons are appended to
`atoms`.  Every `Atom` seeds a generator of its own, so the atom stored at
index `j` reads the stream `theta j`. -/
def pushAtoms (cos sin : K → K) (theta : Nat → Nat → K) (numElectrons : Int) :
    Nat → List (Atom K) → Except Error (List (Atom K))
  | 0, atoms => .ok atoms
  | remaining + 1, atoms =>
    match Atom.new cos sin numElectrons (theta atoms.length) with
    | .error e => .error e
    | .ok a => pushAtoms cos sin theta numElectrons remaining (atoms ++ [a])

/-- The constructor `Semiconductor::Semiconductor(int numCarbon, int numSilicon)`
(lines 64-71): `numCarbon` atoms `Atom(6)`, then `numSilicon` atoms
`Atom(14)`. -/
def new (cos sin : K → K) (theta : Nat → Nat → K) (numCarbon numSilicon : Int) :
    Except Error (Semiconductor K) :=
  match pushAtoms cos sin theta 6 numCarbon.toNat [] with
  | .error e => .error e
  | .ok carbon =>
    match pushAtoms cos sin theta 14 numSilicon.toNat carbon with
    | .error e => .error e
    | .ok atoms => .ok { atoms_ := atoms }

/-- The body of the loop of `calculateRequiredElectrons` (lines 78-90) on the
loop state `(cumulativeProbability, numElectrons)`.  The `throw` of line 82
leaves the function, so the test of line 85 runs only when the test of
line 81 is false. -/
def step (atom : Atom K) (state : K × Int) : Except Error (K × Int) :=
  let cumulativeProbability := state.1 * atom.getConductivityProbability
  let numElectrons := state.2 + atom.getNumElectrons
  if cumulativeProbability < 1e-6 then
    .error .runtime_error
  else if cumulativeProbability < 0.01 then
    let additionalElectrons : Int := 10
    .ok (1.0, numElectrons + additionalElectrons)
  else
    .ok (cumulativeProbability, numElectrons)

/-- The loop `for (const Atom& atom : atoms_)` of `calculateRequiredElectrons`
(lines 77-91), started in the given loop state; the result is the final
`numElectrons`. -/
def loop : List (Atom K) → K × Int → Except Error Int
  | [], state => .ok state.2
  | atom :: rest, state =>
    match step atom state with
    | .error e => .error e
    | .ok state' => loop rest state'

/-- The method `Semiconductor::calculateRequiredElectrons` (lines 73-94):
the loop starts from `cumulativeProbability = 1.0`, `numElectrons = 0`, and the
final `int` is returned as a `double`. -/
def calculateRequiredElectrons (s : Semiconductor K) : Except Error K :=
  match loop s.atoms_ (1.0, 0) with
  | .error e => .error e
  | .ok numElectrons => .ok (numElectrons : K)

end Semiconductor

/-! ## The methods of `Atom` in state-passing form -/

/-- The methods that `class Atom` offers on a constructed atom (lines 47-55):
`getConductivityProbability` and `getNumElectrons`.  The members are private
and the class has no other method. -/
inductive Atom.Method where
  | getConductivityProbability
  | getNumElectrons
  deriving DecidableEq, Repr

/-- A method call on an atom in state-passing form: the value that the call
returns (a `double` or an `int`) and the atom after the call.  Both methods
are declared `const` (lines 47 and 55) and their bodies assign to no member,
so the atom after the call is the atom before it. -/
def Atom.call {K : Type} [LinearOrderedField K] (method : Atom.Method) (a : Atom K) :
    (K ⊕ Int) × Atom K :=
  match method with
  | .getConductivityProbability => (Sum.inl a.getConductivityProbability, a)
  | .getNumElectrons => (Sum.inr a.getNumElectrons, a)

/-- The atom after a sequence of method calls, made one after the other. -/
def Atom.afterCalls {K : Type} [LinearOrderedField K] (methods : List Atom.Method)
    (a : Atom K) : Atom K :=
  methods.foldl (fun atom method => (Atom.call method atom).2) a

/-! ## Vocabulary of the specification -/

section Vocabulary

variable {K : Type} [LinearOrderedField K]

/-- The running product of the conductivity probabilities of the first `k`
atoms of a sequence (the cumulative probability of a walk without reset). -/
def prefixProbability (atoms : List (Atom K)) (k : Nat) : K :=
  ((atoms.take k).map Atom.getConductivityProbability).prod

/-- The sum of the electron counts of a sequence of atoms. -/
def electronSum {K : Type} (atoms : List (Atom K)) : Int :=
  (atoms.map Atom.getNumElectrons).sum

/-- The atom that `Atom::Atom(numElectrons)` builds from the drawn angles
`theta 0, theta 1, ...` when no `Qubit` constructor throws: electron `i` is in
the state `(cos (theta i / 2), sin (theta i / 2))`. -/
def Atom.ofAngles (cos sin : K → K) (numElectrons : Int) (theta : Nat → K) : Atom K :=
  { numElectrons_ := numElectrons
    electrons_ := (List.range numElectrons.toNat).map
      (fun i => { alpha_ := cos (theta i / 2), beta_ := sin (theta i / 2) }) }

/-- The loop state `(cumulativeProbability, numElectrons)` of
`calculateRequiredElectrons` after the loop body has run on every atom of a
sequence, started in the given state: the state carried into the iteration
that follows. -/
def Semiconductor.walk : List (Atom K) → K × Int → Except Error (K × Int)
  | [], state => .ok state
  | atom :: rest, state =>
    match Semiconductor.step atom state with
    | .error e => .error e
    | .ok state' => Semiconductor.walk rest state'

/-- The number of atoms of a sequence at which the reset branch (lines 85-90)
is taken, when the loop is started with the given cumulative probability; the
count stops at an atom at which the loop throws. -/
def Semiconductor.resetCount : List (Atom K) → K → Nat
  | [], _ => 0
  | atom :: rest, cumulativeProbability =>
    if cumulativeProbability * atom.getConductivityProbability < 1e-6 then
      0
    else if cumulativeProbability * atom.getConductivityProbability < 0.01 then
      1 + Semiconductor.resetCount rest 1.0
    else
      Semiconductor.resetCount rest
        (cumulativeProbability * atom.getConductivityProbability)

end Vocabulary

/-! ## Concrete inputs -/

/-- An atom over `ℚ` with `n + m` electrons: `n` in the state `(1, 0)`
followed by `m` in the state `(0, 1)`.  Its conductivity probability is
`n / (n + m)`. -/
def basisAtom (n m : Nat) : Atom ℚ :=
  { numElectrons_ := (n : Int) + (m : Int)
    electrons_ := List.replicate n ⟨1, 0⟩ ++ List.replicate m ⟨0, 1⟩ }

/-! ## Auxiliary facts -/

section Literals

variable {K : Type} [LinearOrderedField K]

theorem lit_one : (1.0 : K) = 1 := by norm_num

theorem lit_two : (2.0 : K) = 2 := by norm_num

theorem lit_exhaust : (1e-6 : K) = 1 / 1000000 := by norm_num

theorem lit_reset : (0.01 : K) = 1 / 100 := by norm_num

end Literals

namespace Qubit

variable {K : Type} [LinearOrderedField K]

theorem new_ok_of_le {alpha beta : K}
    (h : |alpha * alpha + beta * beta - 1| ≤ 1e-6) :
    Qubit.new alpha beta = .ok ⟨alpha, beta⟩ := by
  unfold Qubit.new
  rw [lit_one, if_neg (not_lt.mpr h)]

theorem new_error_of_gt {alpha beta : K}
    (h : 1e-6 < |alpha * alpha + beta * beta - 1|) :
    Qubit.new alpha beta = .error .invalid_argument := by
  unfold Qubit.new
  rw [lit_one, if_pos h]

theorem new_ok_iff {alpha beta : K} {q : Qubit K} :
    Qubit.new alpha beta = .ok q ↔
      |alpha * alpha + beta * beta - 1| ≤ 1e-6 ∧ q = ⟨alpha, beta⟩ := by
  constructor
  · intro h
    by_cases hc : 1e-6 < |alpha * alpha + beta * beta - 1|
    · rw [new_error_of_gt hc] at h
      cases h
    · have hle := not_lt.mp hc
      rw [new_ok_of_le hle] at h
      exact ⟨hle, (Except.ok.inj h).symm⟩
  · rintro ⟨hle, rfl⟩
    exact new_ok_of_le hle

end Qubit

/-! ## The claims -/

/-- C1: for all amplitudes `alpha`, `beta`, the constructor `Qubit::Qubit`
succeeds if and only if `|alpha^2 + beta^2 - 1| <= 1e-6`; outside the
tolerance it fails with `invalid_argument`, so no state is produced; and a
state it produces stores exactly the supplied amplitudes. -/
theorem C1_construct_iff_normalized {K : Type} [LinearOrderedField K] (alpha beta : K) :
    ((∃ q, Qubit.new alpha beta = .ok q) ↔ |alpha ^ 2 + beta ^ 2 - 1| ≤ 1e-6) ∧
    (|alpha ^ 2 + beta ^ 2 - 1| > 1e-6 →
      Qubit.new alpha beta = .error .invalid_argument ∧
      ∀ q, Qubit.new alpha beta ≠ .ok q) ∧
    (∀ q, Qubit.new alpha beta = .ok q →
      q.getAlpha = alpha ∧ q.getBeta = beta) := by
  have e : alpha ^ 2 + beta ^ 2 - 1 = alpha * alpha + beta * beta - 1 := by ring
  rw [e]
  refine ⟨⟨?_, ?_⟩, ?_, ?_⟩
  · rintro ⟨q, hq⟩
    exact (Qubit.new_ok_iff.mp hq).1
  · intro h
    exact ⟨_, Qubit.new_ok_of_le h⟩
  · intro h
    have herr := Qubit.new_error_of_gt h
    refine ⟨herr, ?_⟩
    intro q hq
    rw [herr] at hq
    cases hq
  · intro q hq
    obtain ⟨-, rfl⟩ := Qubit.new_ok_iff.mp hq
    exact ⟨rfl, rfl⟩

/-- Witness of C1 on `ℚ`: `(3/5, 4/5)` is accepted and stored unchanged, and
`(1, 1)`, which is outside the tolerance, is rejected with
`invalid_argument`. -/
theorem C1_construct_iff_normalized_witness :
    Qubit.new (3 / 5 : ℚ) (4 / 5) = .ok ⟨3 / 5, 4 / 5⟩ ∧
    (|(1 : ℚ) ^ 2 + 1 ^ 2 - 1| > 1e-6 ∧
      Qubit.new (1 : ℚ) 1 = .error .invalid_argument) := by
  have h1 := C1_construct_iff_normalized (3 / 5 : ℚ) (4 / 5)
  have h2 := C1_construct_iff_normalized (1 : ℚ) 1
  have hgt : |(1 : ℚ) ^ 2 + 1 ^ 2 - 1| > 1e-6 := by norm_num
  refine ⟨?_, hgt, (h2.2.1 hgt).1⟩
  obtain ⟨q, hq⟩ := h1.1.mpr (by norm_num [abs_le])
  obtain ⟨ha, hb⟩ := h1.2.2 q hq
  rw [hq]
  cases q
  simp only [Qubit.getAlpha, Qubit.getBeta] at ha hb
  rw [ha, hb]

/-! ## The walk of `calculateRequiredElectrons` -/

section Walk

variable {K : Type} [LinearOrderedField K]

theorem exhaust_lt_reset : (1e-6 : K) < 0.01 := by norm_num

theorem prefixProbability_zero (atoms : List (Atom K)) :
    prefixProbability atoms 0 = 1 := by
  simp [prefixProbability]

theorem prefixProbability_cons_succ (a : Atom K) (rest : List (Atom K)) (k : Nat) :
    prefixProbability (a :: rest) (k + 1) =
      a.getConductivityProbability * prefixProbability rest k := by
  simp [prefixProbability]

theorem prefixProbability_length (atoms : List (Atom K)) :
    prefixProbability atoms atoms.length =
      (atoms.map Atom.getConductivityProbability).prod := by
  simp [prefixProbability]

theorem electronSum_nil {K : Type} : electronSum ([] : List (Atom K)) = 0 := rfl

theorem electronSum_cons {K : Type} (a : Atom K) (rest : List (Atom K)) :
    electronSum (a :: rest) = a.getNumElectrons + electronSum rest := by
  simp [electronSum]

theorem electronSum_append {K : Type} (xs ys : List (Atom K)) :
    electronSum (xs ++ ys) = electronSum xs + electronSum ys := by
  simp [electronSum]

namespace Semiconductor

theorem step_exhaust (a : Atom K) (c : K) (n : Int)
    (h : c * a.getConductivityProbability < 1e-6) :
    step a (c, n) = .error .runtime_error := by
  simp only [step, if_pos h]

theorem step_reset (a : Atom K) (c : K) (n : Int)
    (h1 : 1e-6 ≤ c * a.getConductivityProbability)
    (h2 : c * a.getConductivityProbability < 0.01) :
    step a (c, n) = .ok (1.0, n + a.getNumElectrons + 10) := by
  simp only [step, if_neg (not_lt.mpr h1), if_pos h2]

theorem step_pass (a : Atom K) (c : K) (n : Int)
    (h : 0.01 ≤ c * a.getConductivityProbability) :
    step a (c, n) = .ok (c * a.getConductivityProbability, n + a.getNumElectrons) := by
  have h1 : ¬ c * a.getConductivityProbability < 1e-6 :=
    not_lt.mpr (le_trans (le_of_lt exhaust_lt_reset) h)
  simp only [step, if_neg h1, if_neg (not_lt.mpr h)]

theorem loop_nil (state : K × Int) : loop ([] : List (Atom K)) state = .ok state.2 := rfl

theorem loop_cons_ok {a : Atom K} {state state' : K × Int} (rest : List (Atom K))
    (h : step a state = .ok state') : loop (a :: rest) state = loop rest state' := by
  simp only [loop, h]

theorem loop_cons_error {a : Atom K} {state : K × Int} {e : Error} (rest : List (Atom K))
    (h : step a state = .error e) : loop (a :: rest) state = .error e := by
  simp only [loop, h]

/-- A walk in which the cumulative probability never drops below `0.01`
returns the electron counts it has added, and nothing else. -/
theorem loop_no_reset (atoms : List (Atom K)) (c : K) (n : Int)
    (h : ∀ k, 1 ≤ k → k ≤ atoms.length → 0.01 ≤ c * prefixProbability atoms k) :
    loop atoms (c, n) = .ok (n + electronSum atoms) := by
  induction atoms generalizing c n with
  | nil => simp [loop_nil, electronSum_nil]
  | cons a rest ih =>
    have h1 : 0.01 ≤ c * a.getConductivityProbability := by
      have := h 1 le_rfl (by simp)
      rwa [prefixProbability_cons_succ, prefixProbability_zero, mul_one] at this
    rw [loop_cons_ok rest (step_pass a c n h1), ih, electronSum_cons, add_assoc]
    intro k hk1 hk2
    have := h (k + 1) (by omega) (by simpa using hk2)
    rwa [prefixProbability_cons_succ, ← mul_assoc] at this

/-- A walk that first drops below `0.01` at the last atom of `xs`, without
dropping below `1e-6` there, adds the bonus once and continues on `ys` from
a cumulative probability of `1.0`. -/
theorem loop_first_reset (xs ys : List (Atom K)) (c : K) (n : Int) (hne : xs ≠ [])
    (hpre : ∀ k, 1 ≤ k → k < xs.length → 0.01 ≤ c * prefixProbability xs k)
    (hlo : 1e-6 ≤ c * prefixProbability xs xs.length)
    (hhi : c * prefixProbability xs xs.length < 0.01) :
    loop (xs ++ ys) (c, n) = loop ys (1.0, n + electronSum xs + 10) := by
  induction xs generalizing c n with
  | nil => exact absurd rfl hne
  | cons a rest ih =>
    cases rest with
    | nil =>
      have e : prefixProbability [a] [a].length = a.getConductivityProbability := by
        simp [prefixProbability]
      rw [e] at hlo hhi
      have hs := step_reset a c n hlo hhi
      rw [List.singleton_append, loop_cons_ok ys hs, electronSum_cons, electronSum_nil,
        add_zero]
    | cons b t =>
      have h1 : 0.01 ≤ c * a.getConductivityProbability := by
        have := hpre 1 le_rfl (by simp)
        rwa [prefixProbability_cons_succ, prefixProbability_zero, mul_one] at this
      rw [List.cons_append, loop_cons_ok _ (step_pass a c n h1),
        ih (c * a.getConductivityProbability) (n + a.getNumElectrons) (by simp),
        electronSum_cons a (b :: t), add_assoc n]
      · intro k hk1 hk2
        have := hpre (k + 1) (by omega) (by simpa using hk2)
        rwa [prefixProbability_cons_succ, ← mul_assoc] at this
      · have := hlo
        rwa [List.length_cons, prefixProbability_cons_succ, ← mul_assoc] at this
      · have := hhi
        rwa [List.length_cons, prefixProbability_cons_succ, ← mul_assoc] at this

/-- A walk whose cumulative probability drops below `1e-6` at atom `k`,
without a reset before, throws. -/
theorem loop_exhaust (atoms : List (Atom K)) (c : K) (n : Int) (k : Nat)
    (hk1 : 1 ≤ k) (hk2 : k ≤ atoms.length)
    (hlt : c * prefixProbability atoms k < 1e-6)
    (hpre : ∀ j, 1 ≤ j → j < k → 0.01 ≤ c * prefixProbability atoms j) :
    loop atoms (c, n) = .error .runtime_error := by
  induction atoms generalizing c n k with
  | nil => simp at hk2; omega
  | cons a rest ih =>
    obtain ⟨k', rfl⟩ : ∃ k', k = k' + 1 := ⟨k - 1, by omega⟩
    cases k' with
    | zero =>
      rw [zero_add, prefixProbability_cons_succ, prefixProbability_zero, mul_one] at hlt
      exact loop_cons_error rest (step_exhaust a c n hlt)
    | succ m =>
      have h1 : 0.01 ≤ c * a.getConductivityProbability := by
        have := hpre 1 le_rfl (by omega)
        rwa [prefixProbability_cons_succ, prefixProbability_zero, mul_one] at this
      rw [loop_cons_ok rest (step_pass a c n h1)]
      apply ih (c * a.getConductivityProbability) (n + a.getNumElectrons) (m + 1) (by omega)
        (by simpa using hk2)
      · rwa [prefixProbability_cons_succ, ← mul_assoc] at hlt
      · intro j hj1 hj2
        have := hpre (j + 1) (by omega) (by omega)
        rwa [prefixProbability_cons_succ, ← mul_assoc] at this

/-- The electron count a walk starts with is carried through unchanged: the
walk from `(c, n)` fails exactly when the walk from `(c, 0)` fails, and
otherwise returns `n` more. -/
theorem loop_offset (atoms : List (Atom K)) (c : K) (n : Int) :
    loop atoms (c, n) =
      match loop atoms (c, 0) with
      | .error e => .error e
      | .ok r => .ok (n + r) := by
  induction atoms generalizing c n with
  | nil => simp [loop_nil]
  | cons a rest ih =>
    by_cases h1 : c * a.getConductivityProbability < 1e-6
    · rw [loop_cons_error rest (step_exhaust a c n h1),
        loop_cons_error rest (step_exhaust a c 0 h1)]
    · have h1' := not_lt.mp h1
      by_cases h2 : c * a.getConductivityProbability < 0.01
      · rw [loop_cons_ok rest (step_reset a c n h1' h2),
          loop_cons_ok rest (step_reset a c 0 h1' h2), ih 1.0 (n + a.getNumElectrons + 10),
          ih 1.0 (0 + a.getNumElectrons + 10)]
        cases loop rest (1.0, 0) with
        | error e => rfl
        | ok r => simp only [Except.ok.injEq]; ring
      · have h2' := not_lt.mp h2
        rw [loop_cons_ok rest (step_pass a c n h2'),
          loop_cons_ok rest (step_pass a c 0 h2'), ih _ (n + a.getNumElectrons),
          ih _ (0 + a.getNumElectrons)]
        cases loop rest (c * a.getConductivityProbability, 0) with
        | error e => rfl
        | ok r => simp only [Except.ok.injEq]; ring

end Semiconductor

end Walk

/-! ## Facts about atoms -/

section AtomFacts

variable {K : Type} [LinearOrderedField K]

theorem foldl_add_eq_sum (f : Qubit K → K) (l : List (Qubit K)) (x : K) :
    l.foldl (fun total electron => total + f electron) x = x + (l.map f).sum := by
  induction l generalizing x with
  | nil => simp
  | cons q t ih => simp [ih, add_assoc]

theorem Atom.getConductivityProbability_eq (a : Atom K) :
    a.getConductivityProbability =
      (a.electrons_.map Qubit.getConductivityProbability).sum / (a.numElectrons_ : K) := by
  unfold Atom.getConductivityProbability
  simp only [foldl_add_eq_sum, zero_add]

theorem basisAtom_getNumElectrons (n m : Nat) :
    (basisAtom n m).getNumElectrons = (n : Int) + (m : Int) := rfl

theorem basisAtom_probability (n m : Nat) :
    (basisAtom n m).getConductivityProbability = (n : ℚ) / ((n : ℚ) + (m : ℚ)) := by
  rw [Atom.getConductivityProbability_eq]
  simp [basisAtom, Qubit.getConductivityProbability, List.map_replicate, List.sum_replicate]

end AtomFacts

/-- C2: when the running product of the first `k` probabilities is at least
`0.01` for every `k` from 1 to the length of the sequence,
`calculateRequiredElectrons` throws nothing and returns exactly the sum of the
electron counts, without bonus; three atoms of probability `0.5` and electron
count `10` return exactly `30`. -/
theorem C2_no_reset_returns_sum {K : Type} [LinearOrderedField K] :
    (∀ atoms : List (Atom K),
      (∀ k, 1 ≤ k → k ≤ atoms.length → prefixProbability atoms k ≥ 0.01) →
      Semiconductor.calculateRequiredElectrons ⟨atoms⟩ = .ok ((electronSum atoms : Int) : K)) ∧
    (∀ a b c : Atom K,
      a.getConductivityProbability = 0.5 ∧ a.getNumElectrons = 10 →
      b.getConductivityProbability = 0.5 ∧ b.getNumElectrons = 10 →
      c.getConductivityProbability = 0.5 ∧ c.getNumElectrons = 10 →
      Semiconductor.calculateRequiredElectrons ⟨[a, b, c]⟩ = .ok 30) := by
  have main : ∀ atoms : List (Atom K),
      (∀ k, 1 ≤ k → k ≤ atoms.length → prefixProbability atoms k ≥ 0.01) →
      Semiconductor.calculateRequiredElectrons ⟨atoms⟩ =
        .ok ((electronSum atoms : Int) : K) := by
    intro atoms h
    have hl := Semiconductor.loop_no_reset atoms (1.0 : K) 0 (by
      intro k hk1 hk2
      rw [lit_one, one_mul]
      exact h k hk1 hk2)
    simp only [Semiconductor.calculateRequiredElectrons, hl, zero_add]
  refine ⟨main, ?_⟩
  rintro a b c ⟨pa, na⟩ ⟨pb, nb⟩ ⟨pc, nc⟩
  have h := main [a, b, c] (by
    intro k hk1 hk2
    have hk : k = 1 ∨ k = 2 ∨ k = 3 := by
      simp only [List.length_cons, List.length_nil] at hk2
      omega
    rcases hk with rfl | rfl | rfl <;>
      simp only [prefixProbability, List.take, List.map, List.prod_cons, List.prod_nil,
        pa, pb, pc] <;> norm_num)
  rw [h]
  simp only [electronSum, List.map, List.sum_cons, List.sum_nil, na, nb, nc]
  norm_num

/-- Witness of C2 on `ℚ`: three atoms of ten electrons each, five in the
state `(1, 0)` and five in the state `(0, 1)`, have probability `0.5` each and
are given the result `30`. -/
theorem C2_no_reset_returns_sum_witness :
    (basisAtom 5 5).getConductivityProbability = 0.5 ∧
    (basisAtom 5 5).getNumElectrons = 10 ∧
    Semiconductor.calculateRequiredElectrons
      ⟨[basisAtom 5 5, basisAtom 5 5, basisAtom 5 5]⟩ = .ok 30 := by
  have hp : (basisAtom 5 5).getConductivityProbability = 0.5 := by
    rw [basisAtom_probability]; norm_num
  have hn : (basisAtom 5 5).getNumElectrons = 10 := by
    rw [basisAtom_getNumElectrons]; norm_num
  exact ⟨hp, hn, C2_no_reset_returns_sum.2 _ _ _ ⟨hp, hn⟩ ⟨hp, hn⟩ ⟨hp, hn⟩⟩

/-- C3: let `xs` be non-empty, let no proper non-empty prefix of `xs` have a
product below `0.01`, and let the product `p` of all of `xs` satisfy
`1e-6 <= p < 0.01`.  Then `calculateRequiredElectrons` on `xs ++ ys` fails
exactly when it fails on `ys` alone, and otherwise returns the electron sum of
`xs`, plus the bonus `10`, plus its result on `ys` alone: the atoms after the
reset are walked from a cumulative probability of `1.0`.  In particular, when
`ys` causes no further reset, the result is the sum of all electron counts
plus `10`. -/
theorem C3_single_reset {K : Type} [LinearOrderedField K] (xs ys : List (Atom K))
    (hne : xs ≠ [])
    (hpre : ∀ k, 1 ≤ k → k < xs.length → prefixProbability xs k ≥ 0.01)
    (hlo : 1e-6 ≤ (xs.map Atom.getConductivityProbability).prod)
    (hhi : (xs.map Atom.getConductivityProbability).prod < 0.01) :
    (∀ e, Semiconductor.calculateRequiredElectrons ⟨xs ++ ys⟩ = .error e ↔
      Semiconductor.calculateRequiredElectrons ⟨ys⟩ = .error e) ∧
    (∀ r, Semiconductor.calculateRequiredElectrons ⟨ys⟩ = .ok r →
      Semiconductor.calculateRequiredElectrons ⟨xs ++ ys⟩ =
        .ok (((electronSum xs : Int) : K) + 10 + r)) ∧
    ((∀ k, 1 ≤ k → k ≤ ys.length → prefixProbability ys k ≥ 0.01) →
      Semiconductor.calculateRequiredElectrons ⟨xs ++ ys⟩ =
        .ok (((electronSum (xs ++ ys) : Int) : K) + 10)) := by
  have hwalk : Semiconductor.loop (xs ++ ys) ((1.0 : K), 0) =
      Semiconductor.loop ys ((1.0 : K), 0 + electronSum xs + 10) := by
    apply Semiconductor.loop_first_reset xs ys (1.0 : K) 0 hne
    · intro k hk1 hk2
      rw [lit_one, one_mul]
      exact hpre k hk1 hk2
    · rwa [lit_one, one_mul, prefixProbability_length]
    · rwa [lit_one, one_mul, prefixProbability_length]
  have hoff := Semiconductor.loop_offset ys (1.0 : K) (0 + electronSum xs + 10)
  have hcalc : Semiconductor.calculateRequiredElectrons ⟨xs ++ ys⟩ =
      match Semiconductor.calculateRequiredElectrons ⟨ys⟩ with
      | .error e => .error e
      | .ok r => .ok (((electronSum xs : Int) : K) + 10 + r) := by
    simp only [Semiconductor.calculateRequiredElectrons, hwalk, hoff]
    cases Semiconductor.loop ys ((1.0 : K), 0) with
    | error e => rfl
    | ok r => simp only [Except.ok.injEq]; push_cast; ring
  refine ⟨?_, ?_, ?_⟩
  · intro e
    rw [hcalc]
    cases Semiconductor.calculateRequiredElectrons ⟨ys⟩ with
    | error e' => exact Iff.rfl
    | ok r => simp
  · intro r hr
    rw [hcalc, hr]
  · intro hys
    have hl := Semiconductor.loop_no_reset ys (1.0 : K) 0 (by
      intro k hk1 hk2
      rw [lit_one, one_mul]
      exact hys k hk1 hk2)
    have hy : Semiconductor.calculateRequiredElectrons ⟨ys⟩ =
        .ok ((electronSum ys : Int) : K) := by
      simp only [Semiconductor.calculateRequiredElectrons, hl, zero_add]
    rw [hcalc, hy, electronSum_append]
    simp only [Except.ok.injEq]
    push_cast
    ring

/-- Witness of C3 on `ℚ`: the probabilities `0.1, 0.05` (electron counts
`10, 20`) have the product `0.005`, so the walk resets after the second atom;
a third atom of probability `0.5` and count `10` follows.  The result is
`10 + 20 + 10 + 10 = 50`. -/
theorem C3_single_reset_witness :
    Semiconductor.calculateRequiredElectrons
      ⟨[basisAtom 1 9, basisAtom 1 19] ++ [basisAtom 5 5]⟩ = .ok (50 : ℚ) := by
  have h := (C3_single_reset [basisAtom 1 9, basisAtom 1 19] [basisAtom 5 5]
    (by simp)
    (by
      intro k hk1 hk2
      have hk : k = 1 := by
        simp only [List.length_cons, List.length_nil] at hk2
        omega
      subst hk
      simp only [prefixProbability, List.take, List.map, List.prod_cons, List.prod_nil,
        basisAtom_probability]
      norm_num)
    (by
      simp only [List.map, List.prod_cons, List.prod_nil, basisAtom_probability]
      norm_num)
    (by
      simp only [List.map, List.prod_cons, List.prod_nil, basisAtom_probability]
      norm_num)).2.2 (by
      intro k hk1 hk2
      have hk : k = 1 := by
        simp only [List.length_cons, List.length_nil] at hk2
        omega
      subst hk
      simp only [prefixProbability, List.take, List.map, List.prod_cons, List.prod_nil,
        basisAtom_probability]
      norm_num)
  rw [h]
  simp only [electronSum, List.cons_append, List.nil_append, List.map, List.sum_cons,
    List.sum_nil, basisAtom_getNumElectrons]
  norm_num

/-- C4: when the product of the first `k` probabilities is below `1e-6` and
the product of every shorter non-empty prefix is at least `0.01`,
`calculateRequiredElectrons` throws `runtime_error` and returns no count,
whatever atoms follow position `k` and whatever the electron counts are. -/
theorem C4_exhaustion_throws {K : Type} [LinearOrderedField K] (atoms : List (Atom K))
    (k : Nat) (hk1 : 1 ≤ k) (hk2 : k ≤ atoms.length)
    (hlt : prefixProbability atoms k < 1e-6)
    (hpre : ∀ j, 1 ≤ j → j < k → prefixProbability atoms j ≥ 0.01) :
    Semiconductor.calculateRequiredElectrons ⟨atoms⟩ = .error .runtime_error ∧
    ∀ r, Semiconductor.calculateRequiredElectrons ⟨atoms⟩ ≠ .ok r := by
  have hl := Semiconductor.loop_exhaust atoms (1.0 : K) 0 k hk1 hk2
    (by rwa [lit_one, one_mul])
    (by
      intro j hj1 hj2
      rw [lit_one, one_mul]
      exact hpre j hj1 hj2)
  have hc : Semiconductor.calculateRequiredElectrons ⟨atoms⟩ = .error .runtime_error := by
    simp only [Semiconductor.calculateRequiredElectrons, hl]
  refine ⟨hc, ?_⟩
  intro r hr
  rw [hc] at hr
  cases hr

/-- Witness of C4 on `ℚ`: the probabilities `0.5, 0, 0.5`; the product of the
first two is `0 < 1e-6` while the first alone is `0.5 >= 0.01`. -/
theorem C4_exhaustion_throws_witness :
    Semiconductor.calculateRequiredElectrons
      ⟨[basisAtom 5 5, basisAtom 0 6, basisAtom 5 5]⟩ = .error .runtime_error :=
  (C4_exhaustion_throws [basisAtom 5 5, basisAtom 0 6, basisAtom 5 5] 2 (by norm_num)
    (by simp)
    (by
      simp only [prefixProbability, List.take, List.map, List.prod_cons, List.prod_nil,
        basisAtom_probability]
      norm_num)
    (by
      intro j hj1 hj2
      have hj : j = 1 := by omega
      subst hj
      simp only [prefixProbability, List.take, List.map, List.prod_cons, List.prod_nil,
        basisAtom_probability]
      norm_num)).1

/-- C5: the constructor called with the counts `(0, 0)` builds the empty atom
sequence, whatever the random draws, and `calculateRequiredElectrons` on the
empty sequence throws nothing and returns `0`. -/
theorem C5_empty_returns_zero {K : Type} [LinearOrderedField K] (cos sin : K → K)
    (theta : Nat → Nat → K) :
    Semiconductor.new cos sin theta 0 0 = .ok ⟨[]⟩ ∧
    Semiconductor.calculateRequiredElectrons (⟨[]⟩ : Semiconductor K) = .ok 0 := by
  constructor
  · rfl
  · simp [Semiconductor.calculateRequiredElectrons, Semiconductor.loop]

/-- C6: both thresholds are strict.  An atom that brings the cumulative
probability to exactly `0.01` gets no bonus and the cumulative probability
stays `0.01`; a single atom of probability exactly `0.01` and count `n`
returns `n`.  An atom that brings it to exactly `1e-6` does not throw and
takes the reset branch; a single atom of probability exactly `1e-6` and count
`n` returns `n + 10`.  An atom that brings it below `1e-6` throws without
reaching the reset test: no state with a bonus is produced. -/
theorem C6_thresholds_strict {K : Type} [LinearOrderedField K] :
    (∀ (a : Atom K) (c : K) (n : Int), c * a.getConductivityProbability = 0.01 →
      Semiconductor.step a (c, n) = .ok (0.01, n + a.getNumElectrons)) ∧
    (∀ a : Atom K, a.getConductivityProbability = 0.01 →
      Semiconductor.calculateRequiredElectrons ⟨[a]⟩ = .ok (a.getNumElectrons : K)) ∧
    (∀ (a : Atom K) (c : K) (n : Int), c * a.getConductivityProbability = 1e-6 →
      Semiconductor.step a (c, n) = .ok (1.0, n + a.getNumElectrons + 10)) ∧
    (∀ a : Atom K, a.getConductivityProbability = 1e-6 →
      Semiconductor.calculateRequiredElectrons ⟨[a]⟩ = .ok ((a.getNumElectrons : K) + 10)) ∧
    (∀ (a : Atom K) (c : K) (n : Int), c * a.getConductivityProbability < 1e-6 →
      Semiconductor.step a (c, n) = .error .runtime_error) := by
  have hstep1 : ∀ (a : Atom K) (c : K) (n : Int), c * a.getConductivityProbability = 0.01 →
      Semiconductor.step a (c, n) = .ok (0.01, n + a.getNumElectrons) := by
    intro a c n h
    rw [Semiconductor.step_pass a c n (le_of_eq h.symm), h]
  have hstep2 : ∀ (a : Atom K) (c : K) (n : Int), c * a.getConductivityProbability = 1e-6 →
      Semiconductor.step a (c, n) = .ok (1.0, n + a.getNumElectrons + 10) := by
    intro a c n h
    exact Semiconductor.step_reset a c n (le_of_eq h.symm) (h ▸ exhaust_lt_reset)
  refine ⟨hstep1, ?_, hstep2, ?_, ?_⟩
  · intro a h
    have hs := hstep1 a (1.0 : K) 0 (by rw [lit_one, one_mul, h])
    simp only [Semiconductor.calculateRequiredElectrons, Semiconductor.loop, hs, zero_add]
  · intro a h
    have hs := hstep2 a (1.0 : K) 0 (by rw [lit_one, one_mul, h])
    simp only [Semiconductor.calculateRequiredElectrons, Semiconductor.loop, hs, zero_add]
    push_cast
    rfl
  · intro a c n h
    exact Semiconductor.step_exhaust a c n h

/-- Witness of C6 on `ℚ`: an atom of `100` electrons with probability exactly
`0.01` returns `100`, and an atom of `1000000` electrons with probability
exactly `1e-6` returns `1000010`. -/
theorem C6_thresholds_strict_witness :
    ((basisAtom 1 99).getConductivityProbability = 0.01 ∧
      Semiconductor.calculateRequiredElectrons ⟨[basisAtom 1 99]⟩ = .ok (100 : ℚ)) ∧
    ((basisAtom 1 999999).getConductivityProbability = 1e-6 ∧
      Semiconductor.calculateRequiredElectrons ⟨[basisAtom 1 999999]⟩ =
        .ok (1000010 : ℚ)) := by
  have h1 : (basisAtom 1 99).getConductivityProbability = 0.01 := by
    rw [basisAtom_probability]; norm_num
  have h2 : (basisAtom 1 999999).getConductivityProbability = 1e-6 := by
    rw [basisAtom_probability]; norm_num
  refine ⟨⟨h1, ?_⟩, ⟨h2, ?_⟩⟩
  · rw [C6_thresholds_strict.2.1 _ h1, basisAtom_getNumElectrons]
    norm_num
  · rw [C6_thresholds_strict.2.2.2.1 _ h2, basisAtom_getNumElectrons]
    norm_num

/-! ## Facts about `applyHadamard` -/

section Hadamard

variable {K : Type} [LinearOrderedField K]

theorem invSqrt2_mul_self (sqrt : K → K) (h : sqrt 2 * sqrt 2 = 2) :
    (1.0 / sqrt 2.0) * (1.0 / sqrt 2.0) = (1 / 2 : K) := by
  rw [lit_one, lit_two, div_mul_div_comm, h, one_mul]

theorem Qubit.applyHadamard_twice (sqrt : K → K) (h : sqrt 2 * sqrt 2 = 2) (q : Qubit K) :
    Qubit.applyHadamard sqrt (Qubit.applyHadamard sqrt q) = q := by
  have hs := invSqrt2_mul_self sqrt h
  cases q with
  | mk a b =>
    simp only [Qubit.applyHadamard, Qubit.mk.injEq]
    constructor
    · linear_combination (2 * a) * hs
    · linear_combination (2 * b) * hs

theorem Qubit.applyHadamard_norm (sqrt : K → K) (h : sqrt 2 * sqrt 2 = 2) (q : Qubit K) :
    (Qubit.applyHadamard sqrt q).alpha_ ^ 2 + (Qubit.applyHadamard sqrt q).beta_ ^ 2 =
      q.alpha_ ^ 2 + q.beta_ ^ 2 := by
  have hs := invSqrt2_mul_self sqrt h
  simp only [Qubit.applyHadamard]
  linear_combination (2 * q.alpha_ ^ 2 + 2 * q.beta_ ^ 2) * hs

theorem Qubit.applyHadamard_iterate_norm (sqrt : K → K) (h : sqrt 2 * sqrt 2 = 2)
    (q : Qubit K) (n : Nat) :
    ((Qubit.applyHadamard sqrt)^[n] q).alpha_ ^ 2 +
        ((Qubit.applyHadamard sqrt)^[n] q).beta_ ^ 2 =
      q.alpha_ ^ 2 + q.beta_ ^ 2 := by
  induction n with
  | zero => rfl
  | succ m ih =>
    rw [Function.iterate_succ_apply', Qubit.applyHadamard_norm sqrt h, ih]

theorem real_sqrt_two_mul_self : Real.sqrt 2 * Real.sqrt 2 = 2 :=
  Real.mul_self_sqrt (by norm_num)

end Hadamard

/-- C7: over the reals, with `std::sqrt` the real square root, applying
`applyHadamard` twice gives back the state it started from; for a state that
the constructor accepted for `(alpha, beta)`, the amplitudes after two
rotations are `alpha` and `beta` again. -/
theorem C7_rotate_involution :
    (∀ q : Qubit ℝ,
      Qubit.applyHadamard Real.sqrt (Qubit.applyHadamard Real.sqrt q) = q) ∧
    (∀ (alpha beta : ℝ) (q : Qubit ℝ), Qubit.new alpha beta = .ok q →
      (Qubit.applyHadamard Real.sqrt (Qubit.applyHadamard Real.sqrt q)).getAlpha = alpha ∧
      (Qubit.applyHadamard Real.sqrt (Qubit.applyHadamard Real.sqrt q)).getBeta = beta) := by
  refine ⟨Qubit.applyHadamard_twice Real.sqrt real_sqrt_two_mul_self, ?_⟩
  intro alpha beta q hq
  obtain ⟨-, rfl⟩ := Qubit.new_ok_iff.mp hq
  rw [Qubit.applyHadamard_twice Real.sqrt real_sqrt_two_mul_self]
  exact ⟨rfl, rfl⟩

/-- Witness of C7: the basis state `(1, 0)` is accepted by the constructor
and is back at `(1, 0)` after two rotations. -/
theorem C7_rotate_involution_witness :
    Qubit.new (1 : ℝ) 0 = .ok ⟨1, 0⟩ ∧
    (Qubit.applyHadamard Real.sqrt (Qubit.applyHadamard Real.sqrt ⟨1, 0⟩)).getAlpha = 1 ∧
    (Qubit.applyHadamard Real.sqrt (Qubit.applyHadamard Real.sqrt ⟨1, 0⟩)).getBeta = 0 := by
  have hq : Qubit.new (1 : ℝ) 0 = .ok ⟨1, 0⟩ := Qubit.new_ok_of_le (by norm_num)
  exact ⟨hq, C7_rotate_involution.2 1 0 ⟨1, 0⟩ hq⟩

/-- C8: over the reals, `applyHadamard` preserves `alpha^2 + beta^2`; hence a
state accepted by the constructor still passes the constructor's test
`|alpha^2 + beta^2 - 1| <= 1e-6` after any number `n` of rotations: the
constructor called on the rotated amplitudes succeeds. -/
theorem C8_rotate_preserves_norm :
    (∀ q : Qubit ℝ,
      (Qubit.applyHadamard Real.sqrt q).alpha_ ^ 2 +
          (Qubit.applyHadamard Real.sqrt q).beta_ ^ 2 =
        q.alpha_ ^ 2 + q.beta_ ^ 2) ∧
    (∀ (alpha beta : ℝ) (q : Qubit ℝ) (n : Nat), Qubit.new alpha beta = .ok q →
      |((Qubit.applyHadamard Real.sqrt)^[n] q).alpha_ ^ 2 +
          ((Qubit.applyHadamard Real.sqrt)^[n] q).beta_ ^ 2 - 1| ≤ 1e-6 ∧
      Qubit.new ((Qubit.applyHadamard Real.sqrt)^[n] q).alpha_
          ((Qubit.applyHadamard Real.sqrt)^[n] q).beta_ =
        .ok ((Qubit.applyHadamard Real.sqrt)^[n] q)) := by
  refine ⟨Qubit.applyHadamard_norm Real.sqrt real_sqrt_two_mul_self, ?_⟩
  intro alpha beta q n hq
  obtain ⟨hle, rfl⟩ := Qubit.new_ok_iff.mp hq
  have hn := Qubit.applyHadamard_iterate_norm Real.sqrt real_sqrt_two_mul_self
    (⟨alpha, beta⟩ : Qubit ℝ) n
  have hb : |((Qubit.applyHadamard Real.sqrt)^[n] ⟨alpha, beta⟩).alpha_ ^ 2 +
      ((Qubit.applyHadamard Real.sqrt)^[n] ⟨alpha, beta⟩).beta_ ^ 2 - 1| ≤ 1e-6 := by
    rw [hn]
    have e : alpha ^ 2 + beta ^ 2 - 1 = alpha * alpha + beta * beta - 1 := by ring
    rw [e]
    exact hle
  refine ⟨hb, Qubit.new_ok_of_le ?_⟩
  have e : ∀ x y : ℝ, x * x + y * y - 1 = x ^ 2 + y ^ 2 - 1 := by
    intro x y
    ring
  rw [e]
  exact hb

/-- Witness of C8: the state `(3/5, 4/5)` is accepted by the constructor and
passes the constructor again after three rotations. -/
theorem C8_rotate_preserves_norm_witness :
    Qubit.new (3 / 5 : ℝ) (4 / 5) = .ok ⟨3 / 5, 4 / 5⟩ ∧
    Qubit.new ((Qubit.applyHadamard Real.sqrt)^[3] ⟨3 / 5, 4 / 5⟩).alpha_
        ((Qubit.applyHadamard Real.sqrt)^[3] ⟨3 / 5, 4 / 5⟩).beta_ =
      .ok ((Qubit.applyHadamard Real.sqrt)^[3] ⟨3 / 5, 4 / 5⟩) := by
  have hq : Qubit.new (3 / 5 : ℝ) (4 / 5) = .ok ⟨3 / 5, 4 / 5⟩ :=
    Qubit.new_ok_of_le (by norm_num [abs_le])
  exact ⟨hq, (C8_rotate_preserves_norm.2 (3 / 5) (4 / 5) ⟨3 / 5, 4 / 5⟩ 3 hq).2⟩

/-- C9, the claim as stated fails: the constructor accepts
`alpha = 1 + 2^-21`, `beta = 0`, because `alpha^2 - 1 = 2^-20 + 2^-42` is
below `1e-6`, and the conductivity probability `alpha^2` of the accepted state
is greater than `1`.  (All the numbers involved are exact in binary floating
point.) -/
theorem C9_probability_exceeds_one :
    Qubit.new (2097153 / 2097152 : ℚ) 0 = .ok ⟨2097153 / 2097152, 0⟩ ∧
    ¬ ((⟨2097153 / 2097152, 0⟩ : Qubit ℚ).getConductivityProbability ≤ 1) := by
  constructor
  · exact Qubit.new_ok_of_le (by norm_num [abs_le])
  · norm_num [Qubit.getConductivityProbability]

/-- C9, amended: for every state that the constructor accepts,
`getConductivityProbability` is in the closed interval `[0, 1 + 1e-6]`. -/
theorem C9_probability_within_tolerance {K : Type} [LinearOrderedField K] (alpha beta : K)
    (q : Qubit K) (h : Qubit.new alpha beta = .ok q) :
    0 ≤ q.getConductivityProbability ∧ q.getConductivityProbability ≤ 1 + 1e-6 := by
  obtain ⟨hle, rfl⟩ := Qubit.new_ok_iff.mp h
  simp only [Qubit.getConductivityProbability]
  have h2 := (abs_le.mp hle).2
  constructor
  · exact mul_self_nonneg alpha
  · nlinarith [mul_self_nonneg beta]

/-- Witness of the amended C9 on `ℚ`: the accepted state `(1 + 2^-21, 0)`. -/
theorem C9_probability_within_tolerance_witness :
    Qubit.new (2097153 / 2097152 : ℚ) 0 = .ok ⟨2097153 / 2097152, 0⟩ ∧
    (0 ≤ (⟨2097153 / 2097152, 0⟩ : Qubit ℚ).getConductivityProbability ∧
      (⟨2097153 / 2097152, 0⟩ : Qubit ℚ).getConductivityProbability ≤ 1 + 1e-6) := by
  have hq : Qubit.new (2097153 / 2097152 : ℚ) 0 = .ok ⟨2097153 / 2097152, 0⟩ :=
    Qubit.new_ok_of_le (by norm_num [abs_le])
  exact ⟨hq, C9_probability_within_tolerance _ _ _ hq⟩

/-! ## The mean of an atom -/

section Mean

variable {K : Type} [LinearOrderedField K]

theorem sum_bounds_of_unit (l : List K) (h : ∀ x ∈ l, 0 ≤ x ∧ x ≤ 1) :
    0 ≤ l.sum ∧ l.sum ≤ (l.length : K) := by
  induction l with
  | nil => simp
  | cons x t ih =>
    have hx := h x (List.mem_cons_self x t)
    have ht := ih (fun y hy => h y (List.mem_cons_of_mem x hy))
    simp only [List.sum_cons, List.length_cons, Nat.cast_add, Nat.cast_one]
    constructor
    · linarith [hx.1, ht.1]
    · linarith [hx.2, ht.2]

end Mean

/-- C10: for an atom whose electron count `n` is positive and which owns `n`
states, `getConductivityProbability` is the sum of `alpha_i^2` over its states
divided by `n`; and when every state probability is in `[0, 1]`, so is the
probability of the atom. -/
theorem C10_atom_probability_mean {K : Type} [LinearOrderedField K] (a : Atom K)
    (hpos : 0 < a.getNumElectrons)
    (hlen : (a.electrons_.length : Int) = a.getNumElectrons) :
    a.getConductivityProbability =
      (a.electrons_.map (fun q => q.alpha_ ^ 2)).sum / (a.getNumElectrons : K) ∧
    ((∀ q ∈ a.electrons_,
        0 ≤ q.getConductivityProbability ∧ q.getConductivityProbability ≤ 1) →
      0 ≤ a.getConductivityProbability ∧ a.getConductivityProbability ≤ 1) := by
  have hmean := Atom.getConductivityProbability_eq a
  have hnK : (0 : K) < (a.numElectrons_ : K) := by
    have : 0 < a.numElectrons_ := hpos
    exact_mod_cast this
  constructor
  · have hfun : (Qubit.getConductivityProbability : Qubit K → K) = fun q => q.alpha_ ^ 2 := by
      funext q
      simp only [Qubit.getConductivityProbability, pow_two]
    rw [hmean, hfun]
    rfl
  · intro hq
    have hb := sum_bounds_of_unit (a.electrons_.map Qubit.getConductivityProbability) (by
      intro x hx
      obtain ⟨q, hqm, rfl⟩ := List.mem_map.mp hx
      exact hq q hqm)
    have hlenK : ((a.electrons_.map Qubit.getConductivityProbability).length : K) =
        (a.numElectrons_ : K) := by
      have : (a.electrons_.length : Int) = a.numElectrons_ := hlen
      rw [List.length_map]
      exact_mod_cast this
    rw [hlenK] at hb
    rw [hmean]
    exact ⟨div_nonneg hb.1 hnK.le, (div_le_one hnK).mpr hb.2⟩

/-- Witness of C10 on `ℚ`: the atom of ten electrons, five in the state
`(1, 0)` and five in `(0, 1)`, has the mean `(5 * 1 + 5 * 0) / 10`, which lies
in `[0, 1]`. -/
theorem C10_atom_probability_mean_witness :
    (0 < (basisAtom 5 5).getNumElectrons ∧
      ((basisAtom 5 5).electrons_.length : Int) = (basisAtom 5 5).getNumElectrons) ∧
    (0 ≤ (basisAtom 5 5).getConductivityProbability ∧
      (basisAtom 5 5).getConductivityProbability ≤ 1) := by
  have hpos : 0 < (basisAtom 5 5).getNumElectrons := by
    rw [basisAtom_getNumElectrons]; norm_num
  have hlen : ((basisAtom 5 5).electrons_.length : Int) = (basisAtom 5 5).getNumElectrons := by
    rw [basisAtom_getNumElectrons]
    simp [basisAtom]
  refine ⟨⟨hpos, hlen⟩, (C10_atom_probability_mean (basisAtom 5 5) hpos hlen).2 ?_⟩
  intro q hq
  simp only [basisAtom, List.mem_append, List.mem_replicate] at hq
  rcases hq with ⟨-, rfl⟩ | ⟨-, rfl⟩ <;> norm_num [Qubit.getConductivityProbability]

/-! ## The constructors -/

section Constructors

variable {K : Type} [LinearOrderedField K]

theorem Atom.drawElectrons_ok (cos sin : K → K) (theta : Nat → K)
    (H : ∀ x, Qubit.new (cos x) (sin x) = .ok ⟨cos x, sin x⟩)
    (remaining i : Nat) (electrons : List (Qubit K)) :
    Atom.drawElectrons cos sin theta remaining i electrons =
      .ok (electrons ++ (List.range' i remaining).map
        (fun j => ⟨cos (theta j / 2), sin (theta j / 2)⟩)) := by
  induction remaining generalizing i electrons with
  | zero => simp [Atom.drawElectrons]
  | succ r ih =>
    simp only [Atom.drawElectrons, H, ih, List.range'_succ, List.map_cons,
      List.append_assoc, List.singleton_append]

theorem Atom.drawElectrons_length (cos sin : K → K) (theta : Nat → K)
    (remaining i : Nat) (electrons out : List (Qubit K))
    (h : Atom.drawElectrons cos sin theta remaining i electrons = .ok out) :
    out.length = electrons.length + remaining := by
  induction remaining generalizing i electrons with
  | zero =>
    simp only [Atom.drawElectrons, Except.ok.injEq] at h
    rw [← h, add_zero]
  | succ r ih =>
    simp only [Atom.drawElectrons] at h
    cases hq : Qubit.new (cos (theta i / 2)) (sin (theta i / 2)) with
    | error e =>
      rw [hq] at h
      cases h
    | ok q =>
      rw [hq] at h
      rw [ih (i + 1) (electrons ++ [q]) h, List.length_append, List.length_singleton]
      omega

theorem Atom.new_ok (cos sin : K → K) (theta : Nat → K)
    (H : ∀ x, Qubit.new (cos x) (sin x) = .ok ⟨cos x, sin x⟩) (numElectrons : Int) :
    Atom.new cos sin numElectrons theta = .ok (Atom.ofAngles cos sin numElectrons theta) := by
  simp only [Atom.new, Atom.drawElectrons_ok cos sin theta H, List.nil_append,
    Atom.ofAngles, List.range_eq_range']

theorem Atom.new_shape (cos sin : K → K) (theta : Nat → K) (numElectrons : Int)
    (a : Atom K) (h : Atom.new cos sin numElectrons theta = .ok a) :
    a.numElectrons_ = numElectrons ∧ a.electrons_.length = numElectrons.toNat := by
  unfold Atom.new at h
  cases hd : Atom.drawElectrons cos sin theta numElectrons.toNat 0 [] with
  | error e =>
    rw [hd] at h
    cases h
  | ok electrons =>
    rw [hd] at h
    have hl := Atom.drawElectrons_length cos sin theta _ _ _ _ hd
    simp only [Except.ok.injEq] at h
    subst h
    exact ⟨rfl, by simpa using hl⟩

theorem real_trig_accepted (x : ℝ) :
    Qubit.new (Real.cos x) (Real.sin x) = .ok ⟨Real.cos x, Real.sin x⟩ := by
  apply Qubit.new_ok_of_le
  have e : Real.cos x * Real.cos x + Real.sin x * Real.sin x - 1 = 0 := by
    nlinarith [Real.cos_sq_add_sin_sq x]
  rw [e, abs_zero]
  norm_num

theorem real_cos_probability (x : ℝ) :
    0 ≤ (⟨Real.cos x, Real.sin x⟩ : Qubit ℝ).getConductivityProbability ∧
      (⟨Real.cos x, Real.sin x⟩ : Qubit ℝ).getConductivityProbability ≤ 1 := by
  simp only [Qubit.getConductivityProbability]
  constructor
  · exact mul_self_nonneg _
  · nlinarith [Real.cos_sq_add_sin_sq x, mul_self_nonneg (Real.sin x)]

end Constructors

/-- C11: over the reals, for every angle `theta` in `[0, pi]` the pair
`(cos (theta/2), sin (theta/2))` is accepted by the `Qubit` constructor and its
conductivity probability `cos^2 (theta/2)` is in `[0, 1]`; hence for every
electron count and every sequence of angles drawn from `[0, pi]` the `Atom`
constructor succeeds, and every state of the atom it builds has a probability
in `[0, 1]`.  (The proof does not use the range of the angles.) -/
theorem C11_drawn_states_accepted :
    (∀ theta : ℝ, 0 ≤ theta → theta ≤ Real.pi →
      Qubit.new (Real.cos (theta / 2)) (Real.sin (theta / 2)) =
        .ok ⟨Real.cos (theta / 2), Real.sin (theta / 2)⟩ ∧
      (⟨Real.cos (theta / 2), Real.sin (theta / 2)⟩ : Qubit ℝ).getConductivityProbability =
        Real.cos (theta / 2) ^ 2 ∧
      0 ≤ Real.cos (theta / 2) ^ 2 ∧ Real.cos (theta / 2) ^ 2 ≤ 1) ∧
    (∀ (numElectrons : Int) (theta : Nat → ℝ),
      (∀ i, 0 ≤ theta i ∧ theta i ≤ Real.pi) →
      ∃ a, Atom.new Real.cos Real.sin numElectrons theta = .ok a ∧
        ∀ q ∈ a.electrons_,
          0 ≤ q.getConductivityProbability ∧ q.getConductivityProbability ≤ 1) := by
  constructor
  · intro theta _ _
    have hp := real_cos_probability (theta / 2)
    simp only [Qubit.getConductivityProbability, ← pow_two] at hp ⊢
    exact ⟨real_trig_accepted _, trivial, hp⟩
  · intro numElectrons theta _
    refine ⟨_, Atom.new_ok Real.cos Real.sin theta real_trig_accepted numElectrons, ?_⟩
    intro q hq
    simp only [Atom.ofAngles, List.mem_map] at hq
    obtain ⟨i, -, rfl⟩ := hq
    exact real_cos_probability _

/-- Witness of C11: the angle `0` lies in `[0, pi]`; an atom of two electrons
drawn at the angle `0` is built, with both electrons in the state
`(cos 0, sin 0)`. -/
theorem C11_drawn_states_accepted_witness :
    ((0 : ℝ) ≤ 0 ∧ (0 : ℝ) ≤ Real.pi) ∧
    Qubit.new (Real.cos ((0 : ℝ) / 2)) (Real.sin ((0 : ℝ) / 2)) =
      .ok ⟨Real.cos ((0 : ℝ) / 2), Real.sin ((0 : ℝ) / 2)⟩ ∧
    ∃ a, Atom.new Real.cos Real.sin 2 (fun _ => (0 : ℝ)) = .ok a ∧
      ∀ q ∈ a.electrons_,
        0 ≤ q.getConductivityProbability ∧ q.getConductivityProbability ≤ 1 :=
  ⟨⟨le_rfl, Real.pi_pos.le⟩,
    (C11_drawn_states_accepted.1 0 le_rfl Real.pi_pos.le).1,
    C11_drawn_states_accepted.2 2 (fun _ => 0) (fun _ => ⟨le_rfl, Real.pi_pos.le⟩)⟩

section AggregatorConstructor

variable {K : Type} [LinearOrderedField K]

theorem Semiconductor.pushAtoms_ok (cos sin : K → K) (theta : Nat → Nat → K)
    (H : ∀ x, Qubit.new (cos x) (sin x) = .ok ⟨cos x, sin x⟩) (numElectrons : Int)
    (remaining : Nat) (atoms : List (Atom K)) :
    Semiconductor.pushAtoms cos sin theta numElectrons remaining atoms =
      .ok (atoms ++ (List.range' atoms.length remaining).map
        (fun j => Atom.ofAngles cos sin numElectrons (theta j))) := by
  induction remaining generalizing atoms with
  | zero => simp [Semiconductor.pushAtoms]
  | succ r ih =>
    simp only [Semiconductor.pushAtoms, Atom.new_ok cos sin _ H, ih, List.range'_succ,
      List.map_cons, List.append_assoc, List.singleton_append, List.length_append,
      List.length_singleton]

theorem Semiconductor.pushAtoms_shape (cos sin : K → K) (theta : Nat → Nat → K)
    (numElectrons : Int) (remaining : Nat) (atoms out : List (Atom K))
    (h : Semiconductor.pushAtoms cos sin theta numElectrons remaining atoms = .ok out) :
    ∃ added : List (Atom K), out = atoms ++ added ∧ added.length = remaining ∧
      ∀ a ∈ added, a.numElectrons_ = numElectrons ∧
        a.electrons_.length = numElectrons.toNat := by
  induction remaining generalizing atoms with
  | zero =>
    simp only [Semiconductor.pushAtoms, Except.ok.injEq] at h
    exact ⟨[], by simp [h], rfl, by simp⟩
  | succ r ih =>
    simp only [Semiconductor.pushAtoms] at h
    cases ha : Atom.new cos sin numElectrons (theta atoms.length) with
    | error e =>
      rw [ha] at h
      cases h
    | ok a =>
      rw [ha] at h
      obtain ⟨added, hout, hlen, hall⟩ := ih (atoms ++ [a]) h
      refine ⟨a :: added, by simp [hout], by simp [hlen], ?_⟩
      intro b hb
      rcases List.mem_cons.mp hb with rfl | hb'
      · exact Atom.new_shape cos sin _ numElectrons b ha
      · exact hall b hb'

/-- The electron counts of an aggregator that the constructor has built:
`numCarbon` times `6`, then `numSilicon` times `14`. -/
theorem Semiconductor.new_counts (cos sin : K → K) (theta : Nat → Nat → K)
    (numCarbon numSilicon : Int) (sc : Semiconductor K)
    (h : Semiconductor.new cos sin theta numCarbon numSilicon = .ok sc) :
    sc.atoms_.map Atom.getNumElectrons =
      List.replicate numCarbon.toNat 6 ++ List.replicate numSilicon.toNat 14 := by
  unfold Semiconductor.new at h
  cases h1 : Semiconductor.pushAtoms cos sin theta 6 numCarbon.toNat [] with
  | error e =>
    rw [h1] at h
    cases h
  | ok carbon =>
    rw [h1] at h
    cases h2 : Semiconductor.pushAtoms cos sin theta 14 numSilicon.toNat carbon with
    | error e =>
      simp only [h2] at h
      cases h
    | ok atoms =>
      simp only [h2, Except.ok.injEq] at h
      subst h
      obtain ⟨added1, hcarbon, hlen1, hall1⟩ :=
        Semiconductor.pushAtoms_shape cos sin theta 6 _ _ _ h1
      obtain ⟨added2, rfl, hlen2, hall2⟩ :=
        Semiconductor.pushAtoms_shape cos sin theta 14 _ _ _ h2
      rw [List.nil_append] at hcarbon
      subst hcarbon
      have e1 : carbon.map Atom.getNumElectrons = List.replicate numCarbon.toNat 6 := by
        apply List.eq_replicate_iff.mpr
        refine ⟨by simp [hlen1], ?_⟩
        intro n hn
        obtain ⟨a, ha, rfl⟩ := List.mem_map.mp hn
        exact (hall1 a ha).1
      have e2 : added2.map Atom.getNumElectrons = List.replicate numSilicon.toNat 14 := by
        apply List.eq_replicate_iff.mpr
        refine ⟨by simp [hlen2], ?_⟩
        intro n hn
        obtain ⟨a, ha, rfl⟩ := List.mem_map.mp hn
        exact (hall2 a ha).1
      simp only [List.map_append, e1, e2]

theorem Semiconductor.new_succeeds (cos sin : K → K) (theta : Nat → Nat → K)
    (H : ∀ x, Qubit.new (cos x) (sin x) = .ok ⟨cos x, sin x⟩) (numCarbon numSilicon : Int) :
    ∃ sc, Semiconductor.new cos sin theta numCarbon numSilicon = .ok sc := by
  simp only [Semiconductor.new, Semiconductor.pushAtoms_ok cos sin theta H]
  exact ⟨_, rfl⟩

end AggregatorConstructor

/-- C12: over the reals, for all non-negative counts `(numCarbon, numSilicon)`
and all random draws `theta`, the constructor succeeds and builds an atom
sequence whose electron counts are `numCarbon` copies of `6` followed by
`numSilicon` copies of `14`; its length is `numCarbon + numSilicon`. -/
theorem C12_construct_counts (theta : Nat → Nat → ℝ) (numCarbon numSilicon : Int)
    (hc : 0 ≤ numCarbon) (hs : 0 ≤ numSilicon) :
    ∃ sc, Semiconductor.new Real.cos Real.sin theta numCarbon numSilicon = .ok sc ∧
      sc.atoms_.map Atom.getNumElectrons =
        List.replicate numCarbon.toNat 6 ++ List.replicate numSilicon.toNat 14 ∧
      (sc.atoms_.length : Int) = numCarbon + numSilicon := by
  obtain ⟨sc, hsc⟩ :=
    Semiconductor.new_succeeds Real.cos Real.sin theta real_trig_accepted numCarbon numSilicon
  have hcounts := Semiconductor.new_counts Real.cos Real.sin theta numCarbon numSilicon sc hsc
  refine ⟨sc, hsc, hcounts, ?_⟩
  have hlen := congrArg List.length hcounts
  simp only [List.length_map, List.length_append, List.length_replicate] at hlen
  rw [hlen]
  push_cast
  rw [Int.toNat_of_nonneg hc, Int.toNat_of_nonneg hs]

/-- Witness of C12: the counts `(2, 1)` with all angles `0` give the electron
counts `6, 6, 14`. -/
theorem C12_construct_counts_witness :
    ∃ sc, Semiconductor.new Real.cos Real.sin (fun _ _ => (0 : ℝ)) 2 1 = .ok sc ∧
      sc.atoms_.map Atom.getNumElectrons = [6, 6, 14] ∧
      (sc.atoms_.length : Int) = 2 + 1 :=
  C12_construct_counts (fun _ _ => 0) 2 1 (by norm_num) (by norm_num)

/-- C13: `calculateRequiredElectrons` depends on the order of the atoms.  For
atoms `a`, `b`, `c` of probabilities `0.005`, `0.2`, `0.04` and a common
electron count `n`, the order `a, b, c` resets twice and returns `3 n + 20`,
while the permutation `b, a, c` resets once and returns `3 n + 10`; so there
are two sequences, permutations of one another, with different results. -/
theorem C13_order_dependent {K : Type} [LinearOrderedField K] :
    (∀ (a b c : Atom K) (n : Int),
      a.getConductivityProbability = 0.005 ∧ a.getNumElectrons = n →
      b.getConductivityProbability = 0.2 ∧ b.getNumElectrons = n →
      c.getConductivityProbability = 0.04 ∧ c.getNumElectrons = n →
      List.Perm [a, b, c] [b, a, c] ∧
      Semiconductor.calculateRequiredElectrons ⟨[a, b, c]⟩ = .ok (3 * (n : K) + 20) ∧
      Semiconductor.calculateRequiredElectrons ⟨[b, a, c]⟩ = .ok (3 * (n : K) + 10) ∧
      Semiconductor.calculateRequiredElectrons ⟨[a, b, c]⟩ ≠
        Semiconductor.calculateRequiredElectrons ⟨[b, a, c]⟩) ∧
    (∃ xs ys : List (Atom ℚ), List.Perm xs ys ∧
      ∃ r1 r2 : ℚ, Semiconductor.calculateRequiredElectrons ⟨xs⟩ = .ok r1 ∧
        Semiconductor.calculateRequiredElectrons ⟨ys⟩ = .ok r2 ∧ r1 ≠ r2) := by
  have main : ∀ (L : Type) [LinearOrderedField L] (a b c : Atom L) (n : Int),
      a.getConductivityProbability = 0.005 ∧ a.getNumElectrons = n →
      b.getConductivityProbability = 0.2 ∧ b.getNumElectrons = n →
      c.getConductivityProbability = 0.04 ∧ c.getNumElectrons = n →
      Semiconductor.calculateRequiredElectrons ⟨[a, b, c]⟩ = .ok (3 * (n : L) + 20) ∧
      Semiconductor.calculateRequiredElectrons ⟨[b, a, c]⟩ = .ok (3 * (n : L) + 10) := by
    intro L _ a b c n ⟨pa, na⟩ ⟨pb, nb⟩ ⟨pc, nc⟩
    have sa : ∀ m : Int, Semiconductor.step a ((1.0 : L), m) = .ok (1.0, m + n + 10) := by
      intro m
      rw [← na]
      apply Semiconductor.step_reset <;> rw [pa] <;> norm_num
    have sb : ∀ m : Int, Semiconductor.step b ((1.0 : L), m) = .ok (0.2, m + n) := by
      intro m
      rw [← nb]
      have h := Semiconductor.step_pass b (1.0 : L) m (by rw [pb]; norm_num)
      rw [h, pb]
      norm_num
    have sc1 : ∀ m : Int, Semiconductor.step c ((0.2 : L), m) = .ok (1.0, m + n + 10) := by
      intro m
      rw [← nc]
      apply Semiconductor.step_reset <;> rw [pc] <;> norm_num
    have sa2 : ∀ m : Int, Semiconductor.step a ((0.2 : L), m) = .ok (1.0, m + n + 10) := by
      intro m
      rw [← na]
      apply Semiconductor.step_reset <;> rw [pa] <;> norm_num
    have sc2 : ∀ m : Int, Semiconductor.step c ((1.0 : L), m) = .ok (0.04, m + n) := by
      intro m
      rw [← nc]
      have h := Semiconductor.step_pass c (1.0 : L) m (by rw [pc]; norm_num)
      rw [h, pc]
      norm_num
    constructor
    · simp only [Semiconductor.calculateRequiredElectrons, Semiconductor.loop, sa, sb, sc1,
        Except.ok.injEq]
      push_cast
      ring
    · simp only [Semiconductor.calculateRequiredElectrons, Semiconductor.loop, sb, sa2, sc2,
        Except.ok.injEq]
      push_cast
      ring
  constructor
  · intro a b c n ha hb hc
    obtain ⟨h1, h2⟩ := main K a b c n ha hb hc
    refine ⟨List.Perm.swap b a [c], h1, h2, ?_⟩
    rw [h1, h2]
    intro h
    have h' := Except.ok.inj h
    linarith
  · have hp1 : (basisAtom 1 199).getConductivityProbability = 0.005 := by
      rw [basisAtom_probability]; norm_num
    have hp2 : (basisAtom 40 160).getConductivityProbability = 0.2 := by
      rw [basisAtom_probability]; norm_num
    have hp3 : (basisAtom 8 192).getConductivityProbability = 0.04 := by
      rw [basisAtom_probability]; norm_num
    have hn1 : (basisAtom 1 199).getNumElectrons = 200 := by
      rw [basisAtom_getNumElectrons]; norm_num
    have hn2 : (basisAtom 40 160).getNumElectrons = 200 := by
      rw [basisAtom_getNumElectrons]; norm_num
    have hn3 : (basisAtom 8 192).getNumElectrons = 200 := by
      rw [basisAtom_getNumElectrons]; norm_num
    obtain ⟨h1, h2⟩ := main ℚ (basisAtom 1 199) (basisAtom 40 160) (basisAtom 8 192) 200
      ⟨hp1, hn1⟩ ⟨hp2, hn2⟩ ⟨hp3, hn3⟩
    exact ⟨_, _, List.Perm.swap (basisAtom 40 160) (basisAtom 1 199) [basisAtom 8 192],
      _, _, h1, h2, by norm_num⟩

/-- Witness of C13 on `ℚ`: three atoms of `200` electrons each with the
probabilities `1/200`, `40/200`, `8/200` return `620` in this order and `610`
with the first two exchanged. -/
theorem C13_order_dependent_witness :
    Semiconductor.calculateRequiredElectrons
        ⟨[basisAtom 1 199, basisAtom 40 160, basisAtom 8 192]⟩ = .ok (620 : ℚ) ∧
    Semiconductor.calculateRequiredElectrons
        ⟨[basisAtom 40 160, basisAtom 1 199, basisAtom 8 192]⟩ = .ok (610 : ℚ) := by
  have hp1 : (basisAtom 1 199).getConductivityProbability = 0.005 := by
    rw [basisAtom_probability]; norm_num
  have hp2 : (basisAtom 40 160).getConductivityProbability = 0.2 := by
    rw [basisAtom_probability]; norm_num
  have hp3 : (basisAtom 8 192).getConductivityProbability = 0.04 := by
    rw [basisAtom_probability]; norm_num
  have hn1 : (basisAtom 1 199).getNumElectrons = 200 := by
    rw [basisAtom_getNumElectrons]; norm_num
  have hn2 : (basisAtom 40 160).getNumElectrons = 200 := by
    rw [basisAtom_getNumElectrons]; norm_num
  have hn3 : (basisAtom 8 192).getNumElectrons = 200 := by
    rw [basisAtom_getNumElectrons]; norm_num
  have h := C13_order_dependent.1 (basisAtom 1 199) (basisAtom 40 160) (basisAtom 8 192) 200
    ⟨hp1, hn1⟩ ⟨hp2, hn2⟩ ⟨hp3, hn3⟩
  refine ⟨?_, ?_⟩
  · rw [h.2.1]; norm_num
  · rw [h.2.2.1]; norm_num

section AtomInvariant

variable {K : Type} [LinearOrderedField K]

theorem Atom.afterCalls_eq (methods : List Atom.Method) (a : Atom K) :
    Atom.afterCalls methods a = a := by
  unfold Atom.afterCalls
  induction methods with
  | nil => rfl
  | cons m rest ih =>
    rw [List.foldl_cons]
    cases m <;> exact ih

/-- Every atom of an aggregator that the constructor has built owns as many
states as its electron count says. -/
theorem Semiconductor.new_atoms_shape (cos sin : K → K) (theta : Nat → Nat → K)
    (numCarbon numSilicon : Int) (sc : Semiconductor K)
    (h : Semiconductor.new cos sin theta numCarbon numSilicon = .ok sc) :
    ∀ a ∈ sc.atoms_, (a.electrons_.length : Int) = a.numElectrons_ := by
  unfold Semiconductor.new at h
  cases h1 : Semiconductor.pushAtoms cos sin theta 6 numCarbon.toNat [] with
  | error e =>
    rw [h1] at h
    cases h
  | ok carbon =>
    rw [h1] at h
    cases h2 : Semiconductor.pushAtoms cos sin theta 14 numSilicon.toNat carbon with
    | error e =>
      simp only [h2] at h
      cases h
    | ok atoms =>
      simp only [h2, Except.ok.injEq] at h
      subst h
      obtain ⟨added1, hcarbon, -, hall1⟩ :=
        Semiconductor.pushAtoms_shape cos sin theta 6 _ _ _ h1
      obtain ⟨added2, rfl, -, hall2⟩ :=
        Semiconductor.pushAtoms_shape cos sin theta 14 _ _ _ h2
      rw [List.nil_append] at hcarbon
      subst hcarbon
      intro a ha
      rcases List.mem_append.mp ha with ha | ha
      · obtain ⟨hn, hl⟩ := hall1 a ha
        rw [hl, hn]
        rfl
      · obtain ⟨hn, hl⟩ := hall2 a ha
        rw [hl, hn]
        rfl

end AtomInvariant

/-- C14: for every atom that the constructor has built with an electron count
`n` of the specification (a positive integer; the proof also covers `n = 0`),
the number of states the atom owns equals `n`, which is the value that
`getNumElectrons` returns; after any sequence of calls of the methods of
`Atom` both are still `n`.  In particular every atom of an aggregator that
the constructor has built (`Atom(6)` or `Atom(14)`) owns as many states as
`getNumElectrons` returns, before and after any sequence of method calls. -/
theorem C14_states_equal_count {K : Type} [LinearOrderedField K] (cos sin : K → K) :
    (∀ (theta : Nat → K) (n : Int) (a : Atom K), 0 ≤ n →
      Atom.new cos sin n theta = .ok a →
      (a.getNumElectrons = n ∧ (a.electrons_.length : Int) = n ∧
        (a.electrons_.length : Int) = a.getNumElectrons) ∧
      ∀ methods : List Atom.Method,
        (Atom.afterCalls methods a).getNumElectrons = n ∧
        ((Atom.afterCalls methods a).electrons_.length : Int) = n) ∧
    (∀ (theta : Nat → Nat → K) (numCarbon numSilicon : Int) (sc : Semiconductor K),
      Semiconductor.new cos sin theta numCarbon numSilicon = .ok sc →
      ∀ a ∈ sc.atoms_, ∀ methods : List Atom.Method,
        ((Atom.afterCalls methods a).electrons_.length : Int) =
          (Atom.afterCalls methods a).getNumElectrons ∧
        (Atom.afterCalls methods a).getNumElectrons = a.getNumElectrons ∧
        (Atom.afterCalls methods a).electrons_.length = a.electrons_.length) := by
  constructor
  · intro theta n a hn h
    obtain ⟨h1, h2⟩ := Atom.new_shape cos sin theta n a h
    have h3 : (a.electrons_.length : Int) = n := by
      rw [h2, Int.toNat_of_nonneg hn]
    refine ⟨⟨h1, h3, by rw [h3]; exact h1.symm⟩, ?_⟩
    intro methods
    rw [Atom.afterCalls_eq]
    exact ⟨h1, h3⟩
  · intro theta numCarbon numSilicon sc h a ha methods
    rw [Atom.afterCalls_eq]
    exact ⟨Semiconductor.new_atoms_shape cos sin theta numCarbon numSilicon sc h a ha,
      rfl, rfl⟩

/-- Witness of C14: the atom built with the count `3` and all angles `0` owns
three states and `getNumElectrons` returns `3`, also after the two methods
have been called on it. -/
theorem C14_states_equal_count_witness :
    (0 : Int) ≤ 3 ∧
    Atom.new Real.cos Real.sin 3 (fun _ => (0 : ℝ)) =
      .ok (Atom.ofAngles Real.cos Real.sin 3 (fun _ => (0 : ℝ))) ∧
    ((Atom.ofAngles Real.cos Real.sin 3 (fun _ => (0 : ℝ))).electrons_.length : Int) = 3 ∧
    (Atom.afterCalls [Atom.Method.getConductivityProbability, Atom.Method.getNumElectrons]
      (Atom.ofAngles Real.cos Real.sin 3 (fun _ => (0 : ℝ)))).getNumElectrons = 3 ∧
    ((Atom.afterCalls [Atom.Method.getConductivityProbability, Atom.Method.getNumElectrons]
      (Atom.ofAngles Real.cos Real.sin 3 (fun _ => (0 : ℝ)))).electrons_.length : Int) = 3 := by
  have h := Atom.new_ok Real.cos Real.sin (fun _ => (0 : ℝ)) real_trig_accepted 3
  have hc := (C14_states_equal_count Real.cos Real.sin).1 (fun _ => 0) 3 _ (by norm_num) h
  exact ⟨by norm_num, h, hc.1.2.1,
    hc.2 [Atom.Method.getConductivityProbability, Atom.Method.getNumElectrons]⟩

/-- C15: over the reals, `applyHadamard` maps the state `(alpha, beta)` to
`((alpha + beta) / sqrt 2, (alpha - beta) / sqrt 2)`, both computed from the
amplitudes before the rotation; the basis states `(1, 0)` and `(0, 1)` are
mapped to states whose two amplitudes have the same square `1/2`, so that their
conductivity probability is `1/2`. -/
theorem C15_rotate_formula :
    (∀ q : Qubit ℝ,
      Qubit.applyHadamard Real.sqrt q =
        ⟨(q.alpha_ + q.beta_) / Real.sqrt 2, (q.alpha_ - q.beta_) / Real.sqrt 2⟩) ∧
    ((Qubit.applyHadamard Real.sqrt ⟨1, 0⟩).getConductivityProbability = 1 / 2 ∧
      (Qubit.applyHadamard Real.sqrt ⟨1, 0⟩).getBeta ^ 2 = 1 / 2) ∧
    ((Qubit.applyHadamard Real.sqrt ⟨0, 1⟩).getConductivityProbability = 1 / 2 ∧
      (Qubit.applyHadamard Real.sqrt ⟨0, 1⟩).getBeta ^ 2 = 1 / 2) := by
  have hs := invSqrt2_mul_self Real.sqrt real_sqrt_two_mul_self
  refine ⟨?_, ⟨?_, ?_⟩, ⟨?_, ?_⟩⟩
  · intro q
    simp only [Qubit.applyHadamard, lit_one, lit_two, Qubit.mk.injEq]
    constructor <;> ring
  · simp only [Qubit.applyHadamard, Qubit.getConductivityProbability]
    linear_combination hs
  · simp only [Qubit.applyHadamard, Qubit.getBeta]
    linear_combination hs
  · simp only [Qubit.applyHadamard, Qubit.getConductivityProbability]
    linear_combination hs
  · simp only [Qubit.applyHadamard, Qubit.getBeta]
    linear_combination hs

/-- C16: in every aggregator that the constructor has built, every atom has
the electron count `6` or `14`, which is positive, so the divisor
`numElectrons_` of `Atom::getConductivityProbability` is not zero for any atom
that `calculateRequiredElectrons` visits. -/
theorem C16_divisor_nonzero {K : Type} [LinearOrderedField K] (cos sin : K → K)
    (theta : Nat → Nat → K) (numCarbon numSilicon : Int) (sc : Semiconductor K)
    (h : Semiconductor.new cos sin theta numCarbon numSilicon = .ok sc) :
    ∀ a ∈ sc.atoms_,
      (a.getNumElectrons = 6 ∨ a.getNumElectrons = 14) ∧ 0 < a.getNumElectrons ∧
        (a.numElectrons_ : K) ≠ 0 := by
  intro a ha
  have hcounts := Semiconductor.new_counts cos sin theta numCarbon numSilicon sc h
  have hmem : a.getNumElectrons ∈ sc.atoms_.map Atom.getNumElectrons :=
    List.mem_map.mpr ⟨a, ha, rfl⟩
  rw [hcounts, List.mem_append, List.mem_replicate, List.mem_replicate] at hmem
  have h6 : a.getNumElectrons = 6 ∨ a.getNumElectrons = 14 := by
    rcases hmem with ⟨-, h⟩ | ⟨-, h⟩
    · exact Or.inl h
    · exact Or.inr h
  have hpos : 0 < a.getNumElectrons := by
    rcases h6 with h | h <;> rw [h] <;> norm_num
  refine ⟨h6, hpos, ?_⟩
  have : a.numElectrons_ ≠ 0 := ne_of_gt hpos
  exact_mod_cast this

/-- Witness of C16: the aggregator built from the counts `(1, 1)` with all
angles `0` holds one atom of `6` and one atom of `14` electrons; the first has
a positive electron count. -/
theorem C16_divisor_nonzero_witness :
    Semiconductor.new Real.cos Real.sin (fun _ _ => (0 : ℝ)) 1 1 =
      .ok ⟨[Atom.ofAngles Real.cos Real.sin 6 (fun _ => 0),
        Atom.ofAngles Real.cos Real.sin 14 (fun _ => 0)]⟩ ∧
    0 < (Atom.ofAngles Real.cos Real.sin 6 (fun _ => (0 : ℝ))).getNumElectrons := by
  have h : Semiconductor.new Real.cos Real.sin (fun _ _ => (0 : ℝ)) 1 1 =
      .ok ⟨[Atom.ofAngles Real.cos Real.sin 6 (fun _ => 0),
        Atom.ofAngles Real.cos Real.sin 14 (fun _ => 0)]⟩ := by
    simp only [Semiconductor.new,
      Semiconductor.pushAtoms_ok Real.cos Real.sin _ real_trig_accepted]
    rfl
  exact ⟨h, (C16_divisor_nonzero Real.cos Real.sin _ 1 1 _ h _ (List.mem_cons_self _ _)).2.1⟩

/-! ## The loop invariant and the number of resets -/

section Invariant

variable {K : Type} [LinearOrderedField K]

namespace Semiconductor

theorem step_cases (a : Atom K) (c : K) (n : Int) :
    (c * a.getConductivityProbability < 1e-6 ∧ step a (c, n) = .error .runtime_error) ∨
    (1e-6 ≤ c * a.getConductivityProbability ∧ c * a.getConductivityProbability < 0.01 ∧
      step a (c, n) = .ok (1.0, n + a.getNumElectrons + 10)) ∨
    (0.01 ≤ c * a.getConductivityProbability ∧
      step a (c, n) = .ok (c * a.getConductivityProbability, n + a.getNumElectrons)) := by
  by_cases h1 : c * a.getConductivityProbability < 1e-6
  · exact Or.inl ⟨h1, step_exhaust a c n h1⟩
  · by_cases h2 : c * a.getConductivityProbability < 0.01
    · exact Or.inr (Or.inl ⟨not_lt.mp h1, h2, step_reset a c n (not_lt.mp h1) h2⟩)
    · exact Or.inr (Or.inr ⟨not_lt.mp h2, step_pass a c n (not_lt.mp h2)⟩)

theorem loop_eq_walk (atoms : List (Atom K)) (state : K × Int) :
    loop atoms state =
      match walk atoms state with
      | .error e => .error e
      | .ok state' => .ok state'.2 := by
  induction atoms generalizing state with
  | nil => rfl
  | cons a rest ih =>
    simp only [loop, walk]
    cases step a state with
    | error e => rfl
    | ok state' => exact ih state'

/-- The loop body leaves a cumulative probability that is `1.0` or at least
`0.01`. -/
theorem step_invariant (a : Atom K) (state state' : K × Int)
    (h : step a state = .ok state') : state'.1 = 1.0 ∨ 0.01 ≤ state'.1 := by
  obtain ⟨c, n⟩ := state
  rcases step_cases a c n with ⟨-, hs⟩ | ⟨-, -, hs⟩ | ⟨h3, hs⟩
  · rw [hs] at h
    cases h
  · rw [hs] at h
    exact Or.inl (by rw [← Except.ok.inj h])
  · rw [hs] at h
    exact Or.inr (by rw [← Except.ok.inj h]; exact h3)

theorem walk_invariant (atoms : List (Atom K)) (state state' : K × Int)
    (h0 : state.1 = 1.0 ∨ 0.01 ≤ state.1) (h : walk atoms state = .ok state') :
    state'.1 = 1.0 ∨ 0.01 ≤ state'.1 := by
  induction atoms generalizing state with
  | nil =>
    simp only [walk, Except.ok.injEq] at h
    rw [← h]
    exact h0
  | cons a rest ih =>
    simp only [walk] at h
    cases hs : step a state with
    | error e =>
      rw [hs] at h
      cases h
    | ok mid =>
      rw [hs] at h
      exact ih mid (step_invariant a state mid hs) h

theorem reset_le_of_invariant {c : K} (h : c = 1.0 ∨ 0.01 ≤ c) : (0.01 : K) ≤ c := by
  rcases h with h | h
  · rw [h]
    norm_num
  · exact h

/-- Under the invariant the loop body throws only at an atom whose own
probability is below `1e-4`. -/
theorem step_error_small (a : Atom K) (state : K × Int) (e : Error)
    (h0 : state.1 = 1.0 ∨ 0.01 ≤ state.1) (h : step a state = .error e) :
    a.getConductivityProbability < 1e-4 := by
  obtain ⟨c, n⟩ := state
  have hc : (0.01 : K) ≤ c := reset_le_of_invariant h0
  rcases step_cases a c n with ⟨h1, -⟩ | ⟨-, -, hs⟩ | ⟨-, hs⟩
  · by_contra hp
    have hp' : (1e-4 : K) ≤ a.getConductivityProbability := not_lt.mp hp
    have hmul : (0.01 : K) * 1e-4 ≤ c * a.getConductivityProbability :=
      mul_le_mul hc hp' (by norm_num) (le_trans (by norm_num) hc)
    have he : (0.01 : K) * 1e-4 = 1e-6 := by norm_num
    rw [he] at hmul
    exact absurd h1 (not_lt.mpr hmul)
  · rw [hs] at h
    cases h
  · rw [hs] at h
    cases h

theorem walk_ok_of_large (atoms : List (Atom K)) (state : K × Int)
    (h0 : state.1 = 1.0 ∨ 0.01 ≤ state.1)
    (hp : ∀ a ∈ atoms, 1e-4 ≤ a.getConductivityProbability) :
    ∃ state', walk atoms state = .ok state' := by
  induction atoms generalizing state with
  | nil => exact ⟨state, rfl⟩
  | cons a rest ih =>
    simp only [walk]
    cases hs : step a state with
    | error e =>
      have := step_error_small a state e h0 hs
      exact absurd this (not_lt.mpr (hp a (List.mem_cons_self a rest)))
    | ok mid =>
      exact ih mid (step_invariant a state mid hs)
        (fun b hb => hp b (List.mem_cons_of_mem a hb))

theorem resetCount_le_length (atoms : List (Atom K)) (c : K) :
    resetCount atoms c ≤ atoms.length := by
  induction atoms generalizing c with
  | nil => simp [resetCount]
  | cons a rest ih =>
    simp only [resetCount, List.length_cons]
    split_ifs
    · omega
    · have := ih 1.0
      omega
    · have := ih (c * a.getConductivityProbability)
      omega

/-- A walk that returns has added every electron count, and `10` for every
reset. -/
theorem loop_eq_sum_resets (atoms : List (Atom K)) (c : K) (n r : Int)
    (h : loop atoms (c, n) = .ok r) :
    r = n + electronSum atoms + 10 * (resetCount atoms c : Int) := by
  induction atoms generalizing c n with
  | nil =>
    simp only [loop, Except.ok.injEq] at h
    simp [electronSum_nil, resetCount, h]
  | cons a rest ih =>
    rcases step_cases a c n with ⟨-, hs⟩ | ⟨h1, h2, hs⟩ | ⟨h3, hs⟩
    · rw [loop_cons_error rest hs] at h
      cases h
    · rw [loop_cons_ok rest hs] at h
      have := ih _ _ h
      rw [this, electronSum_cons]
      simp only [resetCount, if_neg (not_lt.mpr h1), if_pos h2]
      push_cast
      ring
    · rw [loop_cons_ok rest hs] at h
      have := ih _ _ h
      have h1 : ¬ c * a.getConductivityProbability < 1e-6 :=
        not_lt.mpr (le_trans (le_of_lt exhaust_lt_reset) h3)
      rw [this, electronSum_cons]
      simp only [resetCount, if_neg h1, if_neg (not_lt.mpr h3)]
      ring

end Semiconductor

end Invariant

/-- C17: when every atom has a conductivity probability `p` with
`1e-4 <= p <= 1`, `calculateRequiredElectrons` returns a value and does not
throw.  The reason is the loop invariant: the cumulative probability carried
into an iteration is `1.0` or at least `0.01`, so the loop body can throw only
at an atom whose own probability is below `1e-4`; a walk that throws therefore
contains such an atom. -/
theorem C17_no_exhaustion_above_bound {K : Type} [LinearOrderedField K] :
    (∀ atoms : List (Atom K),
      (∀ a ∈ atoms, 1e-4 ≤ a.getConductivityProbability ∧ a.getConductivityProbability ≤ 1) →
      (∃ r, Semiconductor.calculateRequiredElectrons ⟨atoms⟩ = .ok r) ∧
        Semiconductor.calculateRequiredElectrons ⟨atoms⟩ ≠ .error .runtime_error) ∧
    (∀ (xs : List (Atom K)) (state : K × Int),
      Semiconductor.walk xs (1.0, 0) = .ok state → state.1 = 1.0 ∨ 0.01 ≤ state.1) ∧
    (∀ (xs : List (Atom K)) (a : Atom K) (state : K × Int) (e : Error),
      Semiconductor.walk xs (1.0, 0) = .ok state → Semiconductor.step a state = .error e →
      a.getConductivityProbability < 1e-4) ∧
    (∀ (atoms : List (Atom K)) (e : Error),
      Semiconductor.calculateRequiredElectrons ⟨atoms⟩ = .error e →
      ∃ a ∈ atoms, a.getConductivityProbability < 1e-4) := by
  have hinit : ((1.0 : K), (0 : Int)).1 = 1.0 ∨ (0.01 : K) ≤ ((1.0 : K), (0 : Int)).1 :=
    Or.inl rfl
  have hok : ∀ atoms : List (Atom K),
      (∀ a ∈ atoms, 1e-4 ≤ a.getConductivityProbability) →
      ∃ r, Semiconductor.calculateRequiredElectrons ⟨atoms⟩ = .ok r := by
    intro atoms hp
    obtain ⟨st, hst⟩ := Semiconductor.walk_ok_of_large atoms ((1.0 : K), 0) hinit hp
    refine ⟨(st.2 : K), ?_⟩
    simp only [Semiconductor.calculateRequiredElectrons, Semiconductor.loop_eq_walk, hst]
  refine ⟨?_, ?_, ?_, ?_⟩
  · intro atoms hp
    obtain ⟨r, hr⟩ := hok atoms (fun a ha => (hp a ha).1)
    refine ⟨⟨r, hr⟩, ?_⟩
    rw [hr]
    intro h
    cases h
  · intro xs state h
    exact Semiconductor.walk_invariant xs _ state hinit h
  · intro xs a state e h hs
    exact Semiconductor.step_error_small a state e
      (Semiconductor.walk_invariant xs _ state hinit h) hs
  · intro atoms e he
    by_contra hno
    have hp : ∀ a ∈ atoms, (1e-4 : K) ≤ a.getConductivityProbability := by
      intro a ha
      by_contra hlt
      exact hno ⟨a, ha, not_le.mp hlt⟩
    obtain ⟨r, hr⟩ := hok atoms hp
    rw [hr] at he
    cases he

/-- Witness of C17 on `ℚ`: an atom of probability exactly `1e-4` (one
electron of `10000` in the state `(1, 0)`) followed by an atom of probability
`0.5`; the walk does not throw. -/
theorem C17_no_exhaustion_above_bound_witness :
    ((1e-4 : ℚ) ≤ (basisAtom 1 9999).getConductivityProbability ∧
      (basisAtom 1 9999).getConductivityProbability ≤ 1) ∧
    ((1e-4 : ℚ) ≤ (basisAtom 5 5).getConductivityProbability ∧
      (basisAtom 5 5).getConductivityProbability ≤ 1) ∧
    Semiconductor.calculateRequiredElectrons ⟨[basisAtom 1 9999, basisAtom 5 5]⟩ ≠
      .error .runtime_error := by
  have h1 : (1e-4 : ℚ) ≤ (basisAtom 1 9999).getConductivityProbability ∧
      (basisAtom 1 9999).getConductivityProbability ≤ 1 := by
    rw [basisAtom_probability]; norm_num
  have h2 : (1e-4 : ℚ) ≤ (basisAtom 5 5).getConductivityProbability ∧
      (basisAtom 5 5).getConductivityProbability ≤ 1 := by
    rw [basisAtom_probability]; norm_num
  refine ⟨h1, h2, (C17_no_exhaustion_above_bound.1 [basisAtom 1 9999, basisAtom 5 5] ?_).2⟩
  intro a ha
  simp only [List.mem_cons, List.mem_singleton, List.not_mem_nil, or_false] at ha
  rcases ha with rfl | rfl
  · exact h1
  · exact h2

section Bounds

theorem electronSum_of_counts {K : Type} (atoms : List (Atom K)) (c s : Nat)
    (h : atoms.map Atom.getNumElectrons = List.replicate c 6 ++ List.replicate s 14) :
    electronSum atoms = 6 * (c : Int) + 14 * (s : Int) ∧ atoms.length = c + s := by
  constructor
  · unfold electronSum
    rw [h]
    simp only [List.sum_append, List.sum_replicate, smul_eq_mul]
    ring
  · have := congrArg List.length h
    simpa using this

theorem ofAngles_zero_probability (n : Nat) (hn : 0 < n) :
    (Atom.ofAngles Real.cos Real.sin (n : Int) (fun _ => (0 : ℝ))).getConductivityProbability
      = 1 := by
  have hn' : (n : ℝ) ≠ 0 := Nat.cast_ne_zero.mpr (Nat.pos_iff_ne_zero.mp hn)
  rw [Atom.getConductivityProbability_eq]
  simp only [Atom.ofAngles, Int.toNat_ofNat, List.map_map, Int.cast_natCast]
  have hconst : (Qubit.getConductivityProbability ∘
      fun _ : Nat => ({ alpha_ := Real.cos (0 / 2), beta_ := Real.sin (0 / 2) } : Qubit ℝ)) =
      fun _ => (1 : ℝ) := by
    funext i
    simp [Qubit.getConductivityProbability]
  rw [hconst]
  simp only [List.map_const', List.length_range, List.sum_replicate, nsmul_eq_mul, mul_one]
  exact div_self hn'

end Bounds

/-- C18: whenever `calculateRequiredElectrons` returns, the result is the sum
of all electron counts plus `10 * k`, where `k` is the number of atoms at which
the reset branch was taken, and `k` is at most the number of atoms.  Hence for
an aggregator built by the constructor from non-negative counts `(c, s)`, a
returned value `r` is an integer with `6c + 14s <= r <= 16c + 24s`. -/
theorem C18_result_sum_plus_resets {K : Type} [LinearOrderedField K] :
    (∀ (atoms : List (Atom K)) (r : K),
      Semiconductor.calculateRequiredElectrons ⟨atoms⟩ = .ok r →
      r = ((electronSum atoms + 10 * (Semiconductor.resetCount atoms (1.0 : K) : Int) : Int) : K)
        ∧ Semiconductor.resetCount atoms (1.0 : K) ≤ atoms.length) ∧
    (∀ (cos sin : K → K) (theta : Nat → Nat → K) (c s : Int) (sc : Semiconductor K) (r : K),
      0 ≤ c → 0 ≤ s →
      Semiconductor.new cos sin theta c s = .ok sc →
      Semiconductor.calculateRequiredElectrons sc = .ok r →
      ∃ z : Int, r = (z : K) ∧ 6 * c + 14 * s ≤ z ∧ z ≤ 16 * c + 24 * s) := by
  have main : ∀ (atoms : List (Atom K)) (r : K),
      Semiconductor.calculateRequiredElectrons ⟨atoms⟩ = .ok r →
      r = ((electronSum atoms + 10 * (Semiconductor.resetCount atoms (1.0 : K) : Int) : Int) : K)
        ∧ Semiconductor.resetCount atoms (1.0 : K) ≤ atoms.length := by
    intro atoms r h
    refine ⟨?_, Semiconductor.resetCount_le_length atoms _⟩
    unfold Semiconductor.calculateRequiredElectrons at h
    cases hl : Semiconductor.loop atoms ((1.0 : K), 0) with
    | error e =>
      simp only [hl] at h
      cases h
    | ok m =>
      simp only [hl, Except.ok.injEq] at h
      rw [← h, Semiconductor.loop_eq_sum_resets atoms _ 0 m hl, zero_add]
  refine ⟨main, ?_⟩
  intro cos sin theta c s sc r hc hs hnew hr
  obtain ⟨hsum, hlen⟩ := electronSum_of_counts sc.atoms_ c.toNat s.toNat
    (Semiconductor.new_counts cos sin theta c s sc hnew)
  rw [Int.toNat_of_nonneg hc, Int.toNat_of_nonneg hs] at hsum
  obtain ⟨hr', hk⟩ := main sc.atoms_ r hr
  refine ⟨_, hr', ?_, ?_⟩
  · rw [hsum]
    have : (0 : Int) ≤ (Semiconductor.resetCount sc.atoms_ (1.0 : K) : Int) :=
      Int.natCast_nonneg _
    linarith
  · rw [hsum]
    have hk' : (Semiconductor.resetCount sc.atoms_ (1.0 : K) : Int) ≤
        ((c.toNat + s.toNat : Nat) : Int) := by
      rw [← hlen]
      exact_mod_cast hk
    push_cast at hk'
    rw [Int.toNat_of_nonneg hc, Int.toNat_of_nonneg hs] at hk'
    linarith

/-- Witness of C18: the aggregator built from the counts `(1, 1)` with all
angles `0` has two atoms of probability `1`; the walk resets nowhere and
returns `20`, which lies between `6 + 14` and `16 + 24`. -/
theorem C18_result_sum_plus_resets_witness :
    Semiconductor.new Real.cos Real.sin (fun _ _ => (0 : ℝ)) 1 1 =
      .ok ⟨[Atom.ofAngles Real.cos Real.sin 6 (fun _ => 0),
        Atom.ofAngles Real.cos Real.sin 14 (fun _ => 0)]⟩ ∧
    Semiconductor.calculateRequiredElectrons
      ⟨[Atom.ofAngles Real.cos Real.sin 6 (fun _ => (0 : ℝ)),
        Atom.ofAngles Real.cos Real.sin 14 (fun _ => (0 : ℝ))]⟩ = .ok 20 ∧
    ∃ z : Int, (20 : ℝ) = (z : ℝ) ∧ 6 * 1 + 14 * 1 ≤ z ∧ z ≤ 16 * 1 + 24 * 1 := by
  have hnew : Semiconductor.new Real.cos Real.sin (fun _ _ => (0 : ℝ)) 1 1 =
      .ok ⟨[Atom.ofAngles Real.cos Real.sin 6 (fun _ => 0),
        Atom.ofAngles Real.cos Real.sin 14 (fun _ => 0)]⟩ := by
    simp only [Semiconductor.new,
      Semiconductor.pushAtoms_ok Real.cos Real.sin _ real_trig_accepted]
    rfl
  have p6 := ofAngles_zero_probability 6 (by norm_num)
  have p14 := ofAngles_zero_probability 14 (by norm_num)
  have s6 := Semiconductor.step_pass
    (Atom.ofAngles Real.cos Real.sin ((6 : Nat) : Int) (fun _ => (0 : ℝ))) 1.0 0
    (by rw [p6]; norm_num)
  rw [p6] at s6
  have s14 := Semiconductor.step_pass
    (Atom.ofAngles Real.cos Real.sin ((14 : Nat) : Int) (fun _ => (0 : ℝ))) (1.0 * 1)
    (0 + (Atom.ofAngles Real.cos Real.sin ((6 : Nat) : Int)
      (fun _ => (0 : ℝ))).getNumElectrons)
    (by rw [p14]; norm_num)
  have hcalc : Semiconductor.calculateRequiredElectrons
      ⟨[Atom.ofAngles Real.cos Real.sin 6 (fun _ => (0 : ℝ)),
        Atom.ofAngles Real.cos Real.sin 14 (fun _ => (0 : ℝ))]⟩ = .ok 20 := by
    have e6 : ((6 : Nat) : Int) = 6 := rfl
    have e14 : ((14 : Nat) : Int) = 14 := rfl
    rw [e6] at s6 s14
    rw [e14] at s14
    simp only [Semiconductor.calculateRequiredElectrons, Semiconductor.loop, s6, s14,
      Except.ok.injEq]
    simp only [Atom.getNumElectrons, Atom.ofAngles]
    norm_num
  exact ⟨hnew, hcalc,
    C18_result_sum_plus_resets.2 Real.cos Real.sin _ 1 1 _ 20 (by norm_num) (by norm_num)
      hnew hcalc⟩
